import Mathlib

/-!
# A shallow embedding of the vibrex regular-expression engine (src/vibrex.c)

Byte strings (C `char *`) are modelled as `List Nat` of their bytes, without the
terminating NUL; all strings handled by the engine are NUL-free, so `strlen` is
`List.length` and the various C string primitives are given list-level
re-implementations with the same semantics (`cStrncmpEq`, `cStrstrIdx`, ...).

Fixed-size C arrays indexed by bytes (character-class bitmaps, DFA transition
tables, Boyer-Moore skip tables, `lastlist` arrays) are modelled as total
functions out of `Nat`; a C pointer that may be NULL is an `Option`.

Loops and recursions of the C code are modelled with an explicit fuel (gas)
argument whenever the termination measure is not structural; every such
function is only ever applied with enough fuel for the fuel-out branch to be
unreachable (the bound is noted at the definition), so the embedding computes
exactly what the C code computes.
-/

set_option maxHeartbeats 1000000

namespace Vibrex

/-- Byte value of a character literal. -/
def byte (c : Char) : Nat := c.toNat

/-- Byte string of a Lean string literal. -/
def str (s : String) : List Nat := s.toList.map Char.toNat

/-- `strncmp(a, b, n) == 0` for NUL-terminated strings with contents `a`, `b`
(which are NUL-free): compares up to `n` bytes, stopping at the terminator. -/
def cStrncmpEq : List Nat → List Nat → Nat → Bool
  | _, _, 0 => true
  | [], [], _ + 1 => true
  | [], _ :: _, _ + 1 => false
  | _ :: _, [], _ + 1 => false
  | x :: xs, y :: ys, n + 1 => x == y && cStrncmpEq xs ys n

/-- `strcmp(a, b) == 0` for NUL-free contents: plain list equality. -/
def cStrcmpEq (a b : List Nat) : Bool := a == b

/-- Index of the first occurrence of `needle` in `hay` (`strstr`), if any. -/
def cStrstrIdx : List Nat → List Nat → Option Nat
  | hay, needle =>
    if needle.isPrefixOf hay then some 0
    else
      match hay with
      | [] => none
      | _ :: t => (cStrstrIdx t needle).map (· + 1)

/-- `strchr(s + cur, c)` as an absolute index into `s`; `strchr` with `c = 0`
finds the terminator. -/
def strchrIdx (s : List Nat) (cur : Nat) (c : Nat) : Option Nat :=
  if c == 0 then (if cur ≤ s.length then some s.length else none)
  else ((s.drop cur).findIdx? (· == c)).map (· + cur)

/-- `strchr(set, c) != NULL` for a constant byte set (`c` is a nonzero byte). -/
def inSet (set : List Nat) (c : Nat) : Bool := set.contains c

/-- Point update of a byte-indexed table. -/
def updFun (t : Nat → Nat) (k v : Nat) : Nat → Nat :=
  fun c => if c == k then v else t c

/-- Set bits `a..b` of a 256-bit bitmap (the C loop over `ch` from `a` to `b`). -/
def setRangeBm (bm : Nat → Bool) (a b : Nat) : Nat → Bool :=
  fun c => bm c || (decide (a ≤ c) && decide (c ≤ b))

/-- Split a byte string at every occurrence of `|` (`'|'.toNat = 124`). -/
def splitOnPipe (s : List Nat) : List (List Nat) :=
  s.splitOn 124

/-!
## NFA data model (`StateType`, `struct State`)

`State.out`/`State.out1` pointers become optional indices into the state pool;
the pool itself is the list of nodes in allocation order (`state()` appends).
The per-state `lastlist` tag lives outside the node, as a table `Nat → Nat`
threaded through the simulator together with the global `listid` counter.
-/

inductive NodeTy : Type where
  | ch (c : Nat)
  | anyc
  | cls (bm : Nat → Bool)
  | split
  | matchS
  | startAnchor
  | endAnchor

structure Node : Type where
  ty : NodeTy
  out : Option Nat
  out1 : Option Nat

def NodeTy.isMatch : NodeTy → Bool
  | .matchS => true
  | _ => false

def NodeTy.isEndAnchor : NodeTy → Bool
  | .endAnchor => true
  | _ => false

def NodeTy.isStartAnchor : NodeTy → Bool
  | .startAnchor => true
  | _ => false

/-- A dangling out-arrow of a fragment: a state index together with which of
the two slots (`false` = `out`, `true` = `out1`) is to be patched. -/
abbrev Slot := Nat × Bool

/-- A successful parser fragment: entry state and dangling arrows. -/
structure FragS : Type where
  start : Nat
  out : List Slot

/-- Mutable parser state: the growing state pool plus position and depth of
the `ParseContext`. -/
structure PSt : Type where
  nodes : List Node
  pos : Nat
  depth : Nat

/-- `state()`: allocate a state from the pool (the C code does not bound-check
`nstate` against `MAX_NFA_STATES`; the pool grows unboundedly here just as the
C write does). Returns the new state's index. -/
def newNode (st : PSt) (ty : NodeTy) (out out1 : Option Nat) : PSt × Nat :=
  ({ st with nodes := st.nodes ++ [⟨ty, out, out1⟩] }, st.nodes.length)

/-- Overwrite one out-slot of one state (`*(l->s) = s` through a `Ptrlist`). -/
def setSlot (nodes : List Node) (sl : Slot) (t : Nat) : List Node :=
  match nodes.get? sl.1 with
  | none => nodes
  | some nd =>
      if sl.2 then nodes.set sl.1 { nd with out1 := some t }
      else nodes.set sl.1 { nd with out := some t }

/-- `patch(l, s)`: point every dangling arrow of `l` at state `t`. -/
def patch (nodes : List Node) (l : List Slot) (t : Nat) : List Node :=
  l.foldl (fun ns sl => setSlot ns sl t) nodes

def maxRecursionDepth : Nat := 1000

/-- Character-class body loop of `parseatom` (between `[` and `]`): consumes
range/byte items, accumulating the bitmap; `none` on an inverted range.
Returns the position of the terminating `]` (or of the NUL) and the bitmap.
Gas: each iteration consumes at least one byte, so `re.length + 1` suffices. -/
def classLoopF : Nat → List Nat → Nat → (Nat → Bool) → Option (Nat × (Nat → Bool))
  | 0, _, _, _ => none
  | gas + 1, re, pos, bm =>
    let c := re.getD pos 0
    if c == 0 || c == byte ']' then some (pos, bm)
    else
      let pos := pos + 1
      if re.getD pos 0 == byte '-' && re.getD (pos + 1) 0 != 0
          && re.getD (pos + 1) 0 != byte ']' then
        let e := re.getD (pos + 1) 0
        if e < c then none
        else classLoopF gas re (pos + 2) (setRangeBm bm c e)
      else classLoopF gas re pos (setRangeBm bm c c)

/-- Which parser routine a machine step enters; `catLoop` is the body of
`parsecat`'s while-loop, carrying the fragment built so far. -/
inductive PJob : Type where
  | alt
  | cat
  | catLoop (f1 : FragS)
  | piece
  | atom

/-- A return point of the mutually recursive parser
(`parsealt`/`parsecat`/`parsepiece`/`parseatom`), as a stack frame of the
defunctionalized parser machine:

* `altAfterCat`: inside `parsealt`, after the initial `parsecat`;
* `altAfterAlt e1`: inside `parsealt`, after the recursive `parsealt`;
* `catAfterPiece`: inside `parsecat`, after the first `parsepiece`;
* `catLoopAfterPiece f1`: inside `parsecat`'s loop, after a `parsepiece`;
* `pieceAfterAtom`: inside `parsepiece`, after its `parseatom`;
* `parenAfterAlt`: inside `parseatom`'s `(` branch, after the inner `parsealt`.

(The C parser is a direct mutual recursion; running it as a first-order
machine with an explicit frame stack keeps the embedding computable by the
kernel.  Each frame below performs exactly the code that follows the
corresponding call in the C source.) -/
inductive PFrame : Type where
  | altAfterCat
  | altAfterAlt (e1 : Option FragS)
  | catAfterPiece
  | catLoopAfterPiece (f1 : FragS)
  | pieceAfterAtom
  | parenAfterAlt

/-- Machine control: entering a routine or returning a fragment from one. -/
inductive PCtl : Type where
  | call (j : PJob)
  | ret (e : Option FragS)

/-- `parseatom`, up to its `(` branch (which needs the machine): returns the
updated state and either the atom's fragment (`.ret`) or the request to parse
a parenthesized group (`.call .alt` after pushing `parenAfterAlt`). -/
def parseAtomStep (re : List Nat) (st : PSt) : PSt × (Option FragS ⊕ Unit) :=
  let c := re.getD st.pos 0
  if c == byte '.' then
    let st := { st with pos := st.pos + 1 }
    let (st, s) := newNode st .anyc none none
    (st, .inl (some ⟨s, [(s, false)]⟩))
  else if c == byte '^' then
    let st := { st with pos := st.pos + 1 }
    let (st, s) := newNode st .startAnchor none none
    (st, .inl (some ⟨s, [(s, false)]⟩))
  else if c == byte '$' then
    let st := { st with pos := st.pos + 1 }
    let (st, s) := newNode st .endAnchor none none
    (st, .inl (some ⟨s, [(s, false)]⟩))
  else if c == byte '(' then
    if st.depth ≥ maxRecursionDepth then (st, .inl none)
    else ({ st with depth := st.depth + 1, pos := st.pos + 1 }, .inr ())
  else if c == byte '[' then
    let st := { st with pos := st.pos + 1 }
    let (st, s) := newNode st (.cls (fun _ => false)) none none
    let negated := re.getD st.pos 0 == byte '^'
    let st := if negated then { st with pos := st.pos + 1 } else st
    if re.getD st.pos 0 == byte ']' then (st, .inl none)
    else
      match classLoopF (re.length + 1) re st.pos (fun _ => false) with
      | none => (st, .inl none)
      | some (posB, bm) =>
        let st := { st with pos := posB }
        if re.getD st.pos 0 != byte ']' then (st, .inl none)
        else
          let st := { st with pos := st.pos + 1 }
          let bm := if negated then (fun c => ! bm c) else bm
          let st := { st with nodes := st.nodes.set s ⟨.cls bm, none, none⟩ }
          (st, .inl (some ⟨s, [(s, false)]⟩))
  else if c == byte '\\' then
    if re.getD (st.pos + 1) 0 == 0 then (st, .inl none)
    else
      let c2 := re.getD (st.pos + 1) 0
      let st := { st with pos := st.pos + 2 }
      let (st, s) := newNode st (.ch c2) none none
      (st, .inl (some ⟨s, [(s, false)]⟩))
  else if c == byte ')' then (st, .inl none)
  else if c != 0 && c != byte '*' && c != byte '+' && c != byte '?'
      && c != byte '|' && c != byte ')' then
    let st := { st with pos := st.pos + 1 }
    let (st, s) := newNode st (.ch c) none none
    (st, .inl (some ⟨s, [(s, false)]⟩))
  else (st, .inl none)

/-- Quantifier handling of `parsepiece` after its atom returned `f`. -/
def parsePieceAfter (re : List Nat) (st : PSt) (f : FragS) : PSt × Option FragS :=
  let op := re.getD st.pos 0
  if op != byte '*' && op != byte '+' && op != byte '?' then (st, some f)
  else
    let st := { st with pos := st.pos + 1 }
    if op == byte '*' then
      let (st, s) := newNode st .split (some f.start) none
      let st := { st with nodes := patch st.nodes f.out s }
      (st, some ⟨s, [(s, true)]⟩)
    else if op == byte '+' then
      let (st, s) := newNode st .split (some f.start) none
      let st := { st with nodes := patch st.nodes f.out s }
      (st, some ⟨f.start, [(s, true)]⟩)
    else
      let (st, s) := newNode st .split (some f.start) none
      (st, some ⟨s, f.out ++ [(s, true)]⟩)

/-- The `|`-combination at the end of `parsealt` (the four cases on the two
sub-fragments, allocating the same states in the same order as the C code). -/
def parseAltCombine (st : PSt) (e1 e2 : Option FragS) : PSt × Option FragS :=
  match e1, e2 with
  | none, none =>
    let (st, s) := newNode st .matchS none none
    (st, some ⟨s, []⟩)
  | none, some f2 =>
    let (st, m) := newNode st .matchS none none
    let (st, s) := newNode st .split (some m) (some f2.start)
    (st, some ⟨s, f2.out⟩)
  | some f1, none =>
    let (st, m) := newNode st .matchS none none
    let (st, s) := newNode st .split (some f1.start) (some m)
    (st, some ⟨s, f1.out⟩)
  | some f1, some f2 =>
    let (st, s) := newNode st .split (some f1.start) (some f2.start)
    (st, some ⟨s, f1.out ++ f2.out⟩)

/-- One step of the parser machine.  `inl` is the final result (return with
an empty stack); `inr` the next machine state. -/
def pstep (re : List Nat) :
    PCtl × List PFrame × PSt → (PSt × Option FragS) ⊕ (PCtl × List PFrame × PSt)
  | (.call .alt, k, st) =>
    -- parsealt: depth check, then parsecat
    if st.depth ≥ maxRecursionDepth then .inr (.ret none, k, st)
    else .inr (.call .cat, .altAfterCat :: k, { st with depth := st.depth + 1 })
  | (.call .cat, k, st) =>
    -- parsecat: depth check, empty-concatenation split, or first piece
    if st.depth ≥ maxRecursionDepth then .inr (.ret none, k, st)
    else
      let st := { st with depth := st.depth + 1 }
      let c := re.getD st.pos 0
      if c == 0 || c == byte ')' || c == byte '|' then
        let (st, s) := newNode st .split none none
        .inr (.ret (some ⟨s, [(s, false)]⟩), k, { st with depth := st.depth - 1 })
      else .inr (.call .piece, .catAfterPiece :: k, st)
  | (.call (.catLoop f1), k, st) =>
    -- parsecat's while-loop head
    let c := re.getD st.pos 0
    if c == 0 || c == byte ')' || c == byte '|' then
      .inr (.ret (some f1), k, { st with depth := st.depth - 1 })
    else .inr (.call .piece, .catLoopAfterPiece f1 :: k, st)
  | (.call .piece, k, st) => .inr (.call .atom, .pieceAfterAtom :: k, st)
  | (.call .atom, k, st) =>
    match parseAtomStep re st with
    | (st, .inl e) => .inr (.ret e, k, st)
    | (st, .inr ()) => .inr (.call .alt, .parenAfterAlt :: k, st)
  | (.ret e, [], st) => .inl (st, e)
  | (.ret e1, .altAfterCat :: k, st) =>
    -- parsealt, after parsecat: return unless a | follows
    if re.getD st.pos 0 != byte '|' then
      .inr (.ret e1, k, { st with depth := st.depth - 1 })
    else
      .inr (.call .alt, .altAfterAlt e1 :: k, { st with pos := st.pos + 1 })
  | (.ret e2, .altAfterAlt e1 :: k, st) =>
    -- parsealt, after the recursive parsealt: combine
    let (st, e) := parseAltCombine st e1 e2
    .inr (.ret e, k, { st with depth := st.depth - 1 })
  | (.ret e1, .catAfterPiece :: k, st) =>
    -- parsecat, after the first parsepiece
    match e1 with
    | none => .inr (.ret none, k, { st with depth := st.depth - 1 })
    | some f1 => .inr (.call (.catLoop f1), k, st)
  | (.ret e2, .catLoopAfterPiece f1 :: k, st) =>
    -- parsecat's loop, after a parsepiece: patch and continue
    match e2 with
    | none => .inr (.ret none, k, { st with depth := st.depth - 1 })
    | some f2 =>
      let st := { st with nodes := patch st.nodes f1.out f2.start }
      .inr (.call (.catLoop ⟨f1.start, f2.out⟩), k, st)
  | (.ret e, .pieceAfterAtom :: k, st) =>
    -- parsepiece, after parseatom: quantifier handling
    match e with
    | none => .inr (.ret none, k, st)
    | some f =>
      let (st, e) := parsePieceAfter re st f
      .inr (.ret e, k, st)
  | (.ret e, .parenAfterAlt :: k, st) =>
    -- parseatom's ( branch, after the inner parsealt: require the )
    if re.getD st.pos 0 != byte ')' then
      .inr (.ret none, k, { st with depth := st.depth - 1 })
    else
      .inr (.ret e, k, { st with pos := st.pos + 1, depth := st.depth - 1 })

/-- Run the parser machine for at most `fuel` steps (written with a bare
`Nat.rec` so that the kernel unfolds it step by step). -/
def prun (re : List Nat) (fuel : Nat) (s0 : PCtl × List PFrame × PSt) :
    PSt × Option FragS :=
  Nat.rec (motive := fun _ => PCtl × List PFrame × PSt → PSt × Option FragS)
    (fun s => (s.2.2, none))
    (fun _ ih s =>
      match pstep re s with
      | .inl r => r
      | .inr s2 => ih s2)
    fuel s0

/-- `parsealt` entry point: run the machine from `.call .alt` with an empty
frame stack. -/
def parsealtF (fuel : Nat) (re : List Nat) (st : PSt) : PSt × Option FragS :=
  prun re fuel (.call .alt, [], st)

/-!
## Compiled-pattern data model (`struct vibrex_pattern` and its payloads)

The five optional specialization payloads are the `Option`-valued fields; the
`enabled` flags of the C structs correspond to `isSome`.  Sub-patterns compiled
by the advanced-alternation optimizer make the type recursive, so
`vibrex_pattern` splits into a non-recursive `CompiledBase` plus the recursive
occurrences in the `Compiled` inductive.
-/

structure DfaSt : Type where
  isFinal : Bool
  trans : Nat → Option Nat

instance : Inhabited DfaSt := ⟨⟨false, fun _ => none⟩⟩

/-- The DFA payload; the start state is index 0 (both builders create it
first). -/
structure DfaData : Type where
  states : List DfaSt
  anchoredStart : Bool
  anchoredEnd : Bool

/-- `AltPatternType`. -/
inductive AltTy : Type where
  | lit
  | dsPre
  | dsSuf
  | dsWrap
  | rgx
deriving DecidableEq

/-- The non-recursive fields of one advanced-alternation alternative
(`AltSuf` minus its compiled sub-pattern). -/
structure AltSufBase : Type where
  litSuf : Option (List Nat)
  ty : AltTy
  core : Option (List Nat)

/-- The four dotstar-shape booleans of `AlternationOpt`. -/
structure DsFlags : Type where
  dsPre : Bool
  dsSuf : Bool
  dsWrap : Bool
  dsMixed : Bool

/-- Non-recursive fields of `struct vibrex_pattern`.  `litPre` is the
Boyer-Moore literal prefix (`literal_prefix`/`prefix_len`), `advPre`/`advSuf`
the advanced-alternation common prefix and suffix. -/
structure CompiledBase : Type where
  start : Option Nat := none
  nodes : List Node := []
  anchoredEnd : Bool := false
  hasDotstarUnanchored : Bool := false
  hasFirstChar : Bool := false
  firstChar : Nat := 0
  litPre : List Nat := []
  badCharEnabled : Bool := false
  badCharSkip : Nat → Nat := fun _ => 0
  bothAnchors : Option (List Nat × List Nat) := none
  urlTable : Option (Nat → Bool) := none
  literalAlt : Option (List (List Nat)) := none
  dfa : Option DfaData := none
  hasAdvAlt : Bool := false
  advPre : List Nat := []
  advSuf : List Nat := []
  advDs : DsFlags := ⟨false, false, false, false⟩

/-- A compiled pattern: base fields, the advanced-alternation compiled suffix
pattern, and the per-alternative payloads with their compiled sub-patterns. -/
inductive Compiled : Type where
  | mk (base : CompiledBase) (advSufPat : Option Compiled)
      (advAlts : List (AltSufBase × Option Compiled)) : Compiled

def Compiled.base : Compiled → CompiledBase
  | .mk b _ _ => b

def Compiled.advSufPat : Compiled → Option Compiled
  | .mk _ s _ => s

def Compiled.advAlts : Compiled → List (AltSufBase × Option Compiled)
  | .mk _ _ a => a

/-!
## Optimizer probes
-/

/-- The metacharacter set `".?*+[]()|\\"` used by the both-anchors probe, the
alternative classifier and the suffix/middle scans. -/
def metaAdv : List Nat := str ".?*+[]()|\\"

/-- `can_use_both_anchors_opt`: recognizes `^PREFIX.*SUFFIX$`. -/
def canUseBothAnchorsOpt (p : List Nat) : Bool :=
  let len := p.length
  if len < 3 || p.getD 0 0 != byte '^' || p.getD (len - 1) 0 != byte '$' then false
  else
    match cStrstrIdx (p.drop 1) (str ".*") with
    | none => false
    | some d =>
      let dotstar := 1 + d
      if (cStrstrIdx (p.drop (dotstar + 2)) (str ".*")).isSome then false
      else
        let preLen := dotstar - 1
        let sufLen := (len - 1) - (dotstar + 2)
        if preLen == 0 || sufLen == 0 then false
        else if ((p.drop 1).take preLen).any (inSet metaAdv) then false
        else if ((p.drop (dotstar + 2)).take sufLen).any (inSet metaAdv) then false
        else true

/-- `compile_both_anchors_opt`: the extracted (prefix, suffix) payload. -/
def compileBothAnchorsOpt (p : List Nat) : Option (List Nat × List Nat) :=
  if !canUseBothAnchorsOpt p then none
  else
    match cStrstrIdx (p.drop 1) (str ".*") with
    | none => none
    | some d =>
      let dotstar := 1 + d
      let preLen := dotstar - 1
      let sufLen := (p.length - 1) - (dotstar + 2)
      some ((p.drop 1).take preLen, (p.drop (dotstar + 2)).take sufLen)

/-- `can_use_url_pattern_opt`: recognizes exactly `http(s?)://[class]+`. -/
def canUseUrlPatternOpt (p : List Nat) : Bool :=
  if !(str "http").isPrefixOf p then false
  else
    let afterS : Option (List Nat) :=
      let r := p.drop 4
      if r.headD 0 == byte 's' then
        if r.getD 1 0 != byte '?' then none else some (r.drop 2)
      else some r
    match afterS with
    | none => false
    | some r =>
      if !(str "://").isPrefixOf r then false
      else
        let r := r.drop 3
        if r.headD 0 != byte '[' then false
        else
          match (r.drop 1).findIdx? (· == byte ']') with
          | none => false
          | some k =>
            let r := (r.drop 1).drop (k + 1)
            if r.headD 0 != byte '+' then false
            else r.drop 1 == []

/-- Range parsing loop of `compile_url_pattern_opt` over the class body
(note: unlike the NFA parser, a `-` directly before the closing `]` of this
probe is treated as a range only when at least one byte follows it).
Gas: each iteration consumes at least one byte. -/
def urlClassBuild : Nat → List Nat → (Nat → Bool) → Option (Nat → Bool)
  | 0, _, t => some t
  | _ + 1, [], t => some t
  | gas + 1, a :: rest, t =>
    match rest with
    | 45 :: b :: rest2 =>
      if b < a then none
      else urlClassBuild gas rest2 (setRangeBm t a b)
    | _ => urlClassBuild gas rest (setRangeBm t a a)

/-- `compile_url_pattern_opt`: the 256-entry character table. -/
def compileUrlPatternOpt (p : List Nat) : Option (Nat → Bool) :=
  if !canUseUrlPatternOpt p then none
  else
    match p.findIdx? (· == byte '[') with
    | none => none
    | some i =>
      let afterOpen := p.drop (i + 1)
      match afterOpen.findIdx? (· == byte ']') with
      | none => none
      | some j =>
        urlClassBuild (j + 1) (afterOpen.take j) (fun _ => false)

/-- Wrapper check of `can_use_literal_alt_opt`: walks the interior of a
pattern of the form `( ... )` and reports whether the outer parentheses are a
complete wrapper (balance never dips below zero, final depth zero). -/
def laWrapCheck : List Nat → Nat → Bool
  | [], d => d == 0
  | c :: r, d =>
    if c == byte '(' then laWrapCheck r (d + 1)
    else if c == byte ')' then
      if d == 0 then false else laWrapCheck r (d - 1)
    else laWrapCheck r d

/-- Main scan of `can_use_literal_alt_opt`. -/
def laScan : List Nat → Nat → Bool → Bool → Bool
  | [], d, hasAlt, _ => hasAlt && d == 0
  | c :: r, d, hasAlt, inGroup =>
    if c == byte '(' then laScan r (d + 1) hasAlt inGroup
    else if c == byte ')' then
      if d == 0 then false
      else if (r.headD 0 != 0 && r.headD 0 != byte '|')
          && (!inGroup || d - 1 > 0) then false
      else laScan r (d - 1) hasAlt inGroup
    else if c == byte '|' then laScan r d true inGroup
    else if c == byte '\\' && r.headD 0 != 0 then
      match r with
      | [] => false
      | _ :: r2 => laScan r2 d hasAlt inGroup
    else if inSet (str ".?*+[]^$") c then false
    else laScan r d hasAlt inGroup

/-- `can_use_literal_alt_opt`. -/
def canUseLiteralAltOpt (p : List Nat) : Bool :=
  let inGroup := p.headD 0 == byte '(' && p.getLastD 0 == byte ')'
      && laWrapCheck ((p.drop 1).take (p.length - 2)) 0
  laScan p 0 false inGroup

/-- Split at top-level `|` only (paren-depth aware), as in the second pass of
`parse_literal_alternatives`. -/
def laTopSplit : List Nat → Nat → List Nat → List (List Nat)
  | [], _, acc => [acc.reverse]
  | c :: r, d, acc =>
    if c == byte '(' then laTopSplit r (d + 1) (c :: acc)
    else if c == byte ')' then laTopSplit r (d - 1) (c :: acc)
    else if c == byte '|' && d == 0 then acc.reverse :: laTopSplit r 0 []
    else laTopSplit r d (c :: acc)

/-- `parse_literal_alternatives`: top-level pieces, with pieces of the shape
`( ... )` replaced by their interior split at every `|`. -/
def parseLiteralAlternativesL (p : List Nat) : List (List Nat) :=
  (laTopSplit p 0 []).flatMap (fun piece =>
    if piece.headD 0 == byte '(' && piece.getLastD 0 == byte ')' then
      splitOnPipe ((piece.drop 1).take (piece.length - 2))
    else [piece])

/-- `compile_literal_alt_opt`. -/
def compileLiteralAltOpt (p : List Nat) : Option (List (List Nat)) :=
  if !canUseLiteralAltOpt p then none
  else some (parseLiteralAlternativesL p)

/-- `can_compile_to_dfa` body scan (paren depth stays 0 because `(`/`)` are
rejected outright). -/
def dfaScan : List Nat → Bool
  | [] => true
  | c :: r =>
    if c == byte '$' && r == [] then true
    else if c == byte '\\' then
      match r with
      | [] => false
      | _ :: r2 => dfaScan r2
    else if inSet (str "*+?.[()") c then false
    else dfaScan r

/-- `can_compile_to_dfa`. -/
def canCompileToDfa (p : List Nat) : Bool :=
  dfaScan (if p.headD 0 == byte '^' then p.drop 1 else p)

/-- `create_dfa_state`: append a state, returning its index. -/
def dfaAddState (states : List DfaSt) (fin : Bool) : List DfaSt × Nat :=
  (states ++ [⟨fin, fun _ => none⟩], states.length)

/-- Install transition `i --c--> t`. -/
def dfaSetTrans (states : List DfaSt) (i c t : Nat) : List DfaSt :=
  match states.get? i with
  | none => states
  | some st => states.set i ⟨st.isFinal, fun b => if b == c then some t else st.trans b⟩

/-- Mark state `i` final. -/
def dfaSetFinal (states : List DfaSt) (i : Nat) : List DfaSt :=
  match states.get? i with
  | none => states
  | some st => states.set i ⟨true, st.trans⟩

/-- Chain walk of `compile_literal_to_dfa` (fresh state per byte; `\x`
collapses to `x` when at least one byte follows the backslash). -/
def dfaLitWalk : List DfaSt → Nat → List Nat → List DfaSt
  | states, _, [] => states
  | states, cur, c :: rest =>
    if c == byte '\\' && rest != [] then
      match rest with
      | [] => states
      | c2 :: rest2 =>
        let (states', nxt) := dfaAddState states (rest2 == [])
        dfaLitWalk (dfaSetTrans states' cur c2 nxt) nxt rest2
    else
      let (states', nxt) := dfaAddState states (rest == [])
      dfaLitWalk (dfaSetTrans states' cur c nxt) nxt rest

/-- `compile_literal_to_dfa`. -/
def compileLiteralToDfa (p : List Nat) : Option DfaData :=
  let anchoredStart := p.headD 0 == byte '^'
  let q := if anchoredStart then p.drop 1 else p
  let len := q.length
  let anchoredEnd := decide (len > 0) && q.getD (len - 1) 0 == byte '$'
      && (len == 1 || q.getD (len - 2) 0 != byte '\\')
  let body := if anchoredEnd then q.take (len - 1) else q
  let (states, _) := dfaAddState [] (body.length == 0)
  some ⟨dfaLitWalk states 0 body, anchoredStart, anchoredEnd⟩

/-- Trie walk of `compile_alternation_to_dfa` for one alternative (transitions
are shared; an existing last transition gets its target marked final). -/
def dfaAltWalk : List DfaSt → Nat → List Nat → List DfaSt
  | states, _, [] => states
  | states, cur, c :: rest =>
    if c == byte '\\' && rest != [] then
      match rest with
      | [] => states
      | c2 :: rest2 => dfaAltWalkStep states cur c2 rest2
    else dfaAltWalkStep states cur c rest
where
  dfaAltWalkStep (states : List DfaSt) (cur c2 : Nat) (rest2 : List Nat) : List DfaSt :=
    match (states.getD cur default).trans c2 with
    | none =>
      let (states', nxt) := dfaAddState states (rest2 == [])
      dfaAltWalk (dfaSetTrans states' cur c2 nxt) nxt rest2
    | some nxt =>
      let states' := if rest2 == [] then dfaSetFinal states nxt else states
      dfaAltWalk states' nxt rest2

/-- `compile_alternation_to_dfa`. -/
def compileAlternationToDfa (p : List Nat) : Option DfaData :=
  let anchoredStart := p.headD 0 == byte '^'
  let q := if anchoredStart then p.drop 1 else p
  let plen := q.length
  let anchoredEnd := decide (plen > 0) && q.getD (plen - 1) 0 == byte '$'
      && (plen == 1 || q.getD (plen - 2) 0 != byte '\\')
  let body := if anchoredEnd then q.take (plen - 1) else q
  if body.count (byte '|') > 1000 then none
  else
    let (states, _) := dfaAddState [] false
    let states := (splitOnPipe body).foldl (fun states alt =>
      if alt == [] then dfaSetFinal states 0 else dfaAltWalk states 0 alt) states
    some ⟨states, anchoredStart, anchoredEnd⟩

/-- Inner walk of `dfa_match` for the unanchored case, run on the suffix of
the text that starts at the current offset; accepts at a final state when the
pattern is not end-anchored or the whole text has been consumed. -/
def dfaInner (d : DfaData) : Nat → List Nat → Bool
  | _, [] => false
  | cur, c :: rest =>
    match (d.states.getD cur default).trans c with
    | none => false
    | some nxt =>
      if (d.states.getD nxt default).isFinal && (!d.anchoredEnd || rest == []) then true
      else dfaInner d nxt rest

/-- Walk of `dfa_match` for the anchored-start case. -/
def dfaAnchWalk (d : DfaData) : Nat → List Nat → Bool
  | cur, [] => (d.states.getD cur default).isFinal
  | cur, c :: rest =>
    match (d.states.getD cur default).trans c with
    | none => false
    | some nxt =>
      if (d.states.getD nxt default).isFinal && !d.anchoredEnd then true
      else dfaAnchWalk d nxt rest

/-- Offset loop of `dfa_match` for the unanchored case. -/
def dfaOuterLoop (d : DfaData) : List Nat → Bool
  | [] =>
    if (d.states.getD 0 default).isFinal then true
    else dfaInner d 0 []
  | c :: t =>
    if (d.states.getD 0 default).isFinal && !d.anchoredEnd then true
    else if dfaInner d 0 (c :: t) then true
    else dfaOuterLoop d t

/-- `dfa_match`. -/
def dfaMatch (d : DfaData) (text : List Nat) : Bool :=
  if d.anchoredStart then
    if (d.states.getD 0 default).isFinal && !d.anchoredEnd then true
    else dfaAnchWalk d 0 text
  else dfaOuterLoop d text

/-!
## Advanced alternation optimizer (compile side)

Nested `vibrex_compile` calls are abstracted by a callback `comp`; the
top-level `vibrexCompileF` passes itself at one less fuel.
-/

/-- Strip a leading `^` and, afterwards, a trailing `$` from one alternative
(the way every helper of the advanced optimizer does). -/
def stripAnchors (alt : List Nat) : List Nat :=
  let a := if alt.headD 0 == byte '^' then alt.tail else alt
  if a != [] && a.getLastD 0 == byte '$' then a.dropLast else a

/-- Does the (anchor-stripped) alternative start with `.*`? -/
def hasDotstarPreB (alt : List Nat) : Bool :=
  let a := stripAnchors alt
  decide (a.length ≥ 2) && a.getD 0 0 == byte '.' && a.getD 1 0 == byte '*'

/-- Does the (anchor-stripped) alternative end with `.*`? -/
def hasDotstarSufB (alt : List Nat) : Bool :=
  let a := stripAnchors alt
  decide (a.length ≥ 2) && a.getD (a.length - 2) 0 == byte '.'
    && a.getD (a.length - 1) 0 == byte '*'

/-- `classify_alternative_pattern`. -/
def classifyAlternative (alt : List Nat) : AltTy :=
  let a := stripAnchors alt
  if a.length < 2 then .lit
  else
    let hasPre := a.getD 0 0 == byte '.' && a.getD 1 0 == byte '*'
    let hasSuf := a.getD (a.length - 2) 0 == byte '.' && a.getD (a.length - 1) 0 == byte '*'
    if hasPre && hasSuf then .dsWrap
    else if hasPre then .dsPre
    else if hasSuf then .dsSuf
    else if a.any (inSet metaAdv) then .rgx
    else .lit

/-- `can_use_advanced_alternation_opt`. -/
def canUseAdvancedAlternationOpt (p : List Nat) : Bool :=
  let altCount := p.count (byte '|')
  if altCount > 1000 then false
  else if altCount == 0 then false
  else
    let alts := splitOnPipe p
    let allPre := alts.all hasDotstarPreB
    let allSuf := alts.all hasDotstarSufB
    let anyDs := alts.any (fun a => hasDotstarPreB a || hasDotstarSufB a)
    let mixed :=
      match alts with
      | [] => false
      | a0 :: rest => rest.any (fun a => classifyAlternative a != classifyAlternative a0)
    let consistent := allPre || allSuf
    let sufficientNoDs := !anyDs && decide (altCount ≥ 2)
        && (p.headD 0 == byte '^' || decide (altCount ≥ 3))
    let mixedEnabled := mixed && p.headD 0 == byte '^'
    consistent || sufficientNoDs || mixedEnabled

/-- `parse_alternatives` (the advanced-optimizer one): split at every `|`,
refusing more than `MAX_ALTERNATIONS` alternatives. -/
def parseAlternativesO (p : List Nat) : Option (List (List Nat)) :=
  if p.count (byte '|') + 1 > 1000 then none
  else some (splitOnPipe p)

/-- `check_dotstar_consistency`: the four shape flags plus whether the dotstar
path is taken. -/
def checkDotstarConsistency (alts : List (List Nat)) : DsFlags × Bool :=
  let allPre := alts.all hasDotstarPreB
  let allSuf := alts.all hasDotstarSufB
  let mixed :=
    match alts with
    | [] => false
    | a0 :: rest => rest.any (fun a => classifyAlternative a != classifyAlternative a0)
  (⟨allPre, allSuf, allPre && allSuf, mixed⟩, allPre || allSuf || mixed)

/-- `extract_core_pattern`: remove anchors and the dotstar wrappers dictated
by the classified type; an empty core is `none` (the C code leaves the field
NULL). -/
def extractCore (alt : List Nat) (ty : AltTy) : Option (List Nat) :=
  let a := stripAnchors alt
  let core :=
    match ty with
    | .dsPre => if a.length ≥ 2 then a.drop 2 else a
    | .dsSuf => if a.length ≥ 2 then a.take (a.length - 2) else a
    | .dsWrap =>
      if a.length ≥ 4 then (a.drop 2).take (a.length - 4)
      else if a.length == 2 then []
      else a
    | _ => a
  if core.length > 0 then some core else none

/-- `compile_dotstar_optimization` over the alternative list; a failing nested
compile fails the whole optimization. -/
def compileDotstarGo (comp : List Nat → Option Compiled) :
    List (List Nat) → Option (List (AltSufBase × Option Compiled))
  | [] => some []
  | alt :: rest =>
    let ty := classifyAlternative alt
    let core := extractCore alt ty
    let entry : Option (AltSufBase × Option Compiled) :=
      if ty = .rgx then
        match core with
        | some c =>
          match comp (str "^" ++ c ++ str "$") with
          | none => none
          | some sub => some (⟨none, ty, core⟩, some sub)
        | none => some (⟨none, ty, core⟩, none)
      else some (⟨core, ty, core⟩, none)
    match entry with
    | none => none
    | some e =>
      match compileDotstarGo comp rest with
      | none => none
      | some l => some (e :: l)

/-- Common-prefix loop of `find_common_prefix_suffix`: extend while every
later alternative (stripped of `^`, but bounds-checked against its unstripped
length, as the C code does) agrees with the first alternative's byte. -/
def fcpsPreLoop (p0 : List Nat) (rest : List (List Nat × Nat)) : Nat → Nat → Nat
  | 0, k => k
  | b + 1, k =>
    let c := p0.getD k 0
    if rest.all (fun ao => decide (k < ao.2) && ao.1.getD k 0 == c) then
      fcpsPreLoop p0 rest b (k + 1)
    else k

/-- Common-suffix loop of `find_common_prefix_suffix`: grow `s` while every
(fully stripped) alternative has length ≥ preLen + s and agrees with the first
alternative's byte at distance `s` from its end.  Exhausting the budget means
the loop left normally with `s` one past the bound (the caller clamps). -/
def fcpsSufLoop (stripAlts : List (List Nat)) (first : List Nat) (preLen : Nat) :
    Nat → Nat → Nat
  | 0, s => s
  | b + 1, s =>
    if first.length < preLen + s then s - 1
    else
      let ec := first.getD (first.length - s) 0
      if stripAlts.all (fun a =>
          decide (preLen + s ≤ a.length) && a.getD (a.length - s) 0 == ec) then
        fcpsSufLoop stripAlts first preLen b (s + 1)
      else s - 1

/-- `find_common_prefix_suffix`: the common prefix and suffix (either may be
empty, but at least one must have length ≥ 3). -/
def findCommonPreSuf (p : List Nat) (alts : List (List Nat)) :
    Option (List Nat × List Nat) :=
  let q := if p.headD 0 == byte '^' then p.drop 1 else p
  match q.findIdx? (· == byte '|') with
  | none => none
  | some firstPipe =>
    let restPairs := alts.tail.map (fun a =>
      ((if a.headD 0 == byte '^' then a.tail else a), a.length))
    let preLen := fcpsPreLoop q restPairs firstPipe 0
    let stripAlts := alts.map stripAnchors
    let minLen := (stripAlts.map List.length).foldl min
        ((stripAlts.headD []).length)
    let sufLen :=
      if alts.length > 1 then
        min (fcpsSufLoop stripAlts (stripAlts.headD []) preLen (minLen - preLen) 1)
          (minLen - preLen)
      else 0
    if preLen < 3 && sufLen < 3 then none
    else
      let suf0 := stripAlts.headD []
      some (q.take preLen, (suf0.drop (suf0.length - sufLen)).take sufLen)

/-- `compile_suffix_pattern`: `none` = failure, `some none` = literal suffix,
`some (some c)` = suffix compiled as the sub-pattern `^suffix$`. -/
def compileSufPatG (comp : List Nat → Option Compiled) (suf : List Nat) :
    Option (Option Compiled) :=
  if suf.length == 0 then some none
  else if !suf.any (inSet metaAdv) then some none
  else
    match comp (str "^" ++ suf ++ str "$") with
    | none => none
    | some c => some (some c)

/-- `compile_middle_parts` over the alternative list. -/
def compileMiddleGo (comp : List Nat → Option Compiled) (preLen sufLen : Nat) :
    List (List Nat) → Option (List (AltSufBase × Option Compiled))
  | [] => some []
  | alt :: rest =>
    let a := stripAnchors alt
    let middleLen := a.length - preLen - sufLen
    let middle := (a.drop preLen).take middleLen
    let entry : Option (AltSufBase × Option Compiled) :=
      if middleLen > 0 then
        if !middle.any (inSet metaAdv) then some (⟨some middle, .lit, none⟩, none)
        else
          match comp (str "^" ++ middle ++ str "$") with
          | none => none
          | some sub => some (⟨none, .lit, none⟩, some sub)
      else some (⟨none, .lit, none⟩, none)
    match entry with
    | none => none
    | some e =>
      match compileMiddleGo comp preLen sufLen rest with
      | none => none
      | some l => some (e :: l)

/-- The advanced-alternation payload produced by
`compile_advanced_alternation_opt`. -/
structure AdvParts : Type where
  pre : List Nat
  suf : List Nat
  flags : DsFlags
  sufPat : Option Compiled
  alts : List (AltSufBase × Option Compiled)

/-- `compile_advanced_alternation_opt`. -/
def compileAdvancedG (comp : List Nat → Option Compiled) (p : List Nat) :
    Option AdvParts :=
  if !canUseAdvancedAlternationOpt p then none
  else
    match parseAlternativesO p with
    | none => none
    | some alts =>
      let (flags, useDs) := checkDotstarConsistency alts
      if useDs then
        match compileDotstarGo comp alts with
        | none => none
        | some l => some ⟨[], [], flags, none, l⟩
      else
        match findCommonPreSuf p alts with
        | none => none
        | some (pre, suf) =>
          match compileSufPatG comp suf with
          | none => none
          | some sp =>
            match compileMiddleGo comp pre.length suf.length alts with
            | none => none
            | some l => some ⟨pre, suf, flags, sp, l⟩

/-!
## `vibrex_compile`
-/

/-- The metacharacter set of the literal-prefix extraction in
`vibrex_compile` (which, unlike `metaAdv`, also contains `^` and `$`). -/
def metaPreSet : List Nat := str ".?*+[]()|^$"

/-- Top-level-alternation scan of `vibrex_compile` (no escape handling, as in
the C code). -/
def topAltScan : List Nat → Int → Bool
  | [], _ => false
  | c :: r, d =>
    if c == byte '(' then topAltScan r (d + 1)
    else if c == byte ')' then topAltScan r (d - 1)
    else if c == byte '|' && d == 0 then true
    else topAltScan r d

/-- Literal-prefix extraction loop of `vibrex_compile`: collects up to `cap`
(= 255) leading literal bytes (escaped non-metacharacters included),
returning the collected prefix and the unconsumed remainder. -/
def preScanB (cap : Nat) : List Nat → List Nat × List Nat
  | [] => ([], [])
  | c :: r =>
    if cap == 0 then ([], c :: r)
    else if c == byte '\\' && r.headD 0 != 0 then
      if inSet metaPreSet (r.headD 0) then ([], c :: r)
      else
        match r with
        | [] => ([], c :: r)
        | c2 :: r2 =>
          let (buf, rest') := preScanB (cap - 1) r2
          (c2 :: buf, rest')
    else if inSet metaPreSet c then ([], c :: r)
    else
      let (buf, rest') := preScanB (cap - 1) r
      (c :: buf, rest')

/-- The NFA path of `vibrex_compile` (parse, patch in the match state, set
`anchored_end`, and run the literal-prefix / Boyer-Moore analysis).  The
parser fuel counts machine steps; every cycle through the routines and every
`parsecat` iteration consumes at least one input byte (and errors unwind
directly), so the number of steps is well under `32 * (len + 2)` and the
fuel-out branch is unreachable. -/
def nfaTailCompile (p : List Nat) : Option Compiled :=
  let fuel := 32 * (p.length + 2)
  let (st, e) := parsealtF fuel p ⟨[], 0, 0⟩
  match e with
  | none => none
  | some f =>
    if st.pos < p.length then none
    else
      let (st, m) := newNode st .matchS none none
      let nodes := patch st.nodes f.out m
      let anchoredEnd := decide (p.length > 0) && p.getD (p.length - 1) 0 == byte '$'
          && (p.length == 1 || p.getD (p.length - 2) 0 != byte '\\')
      let hasTopAlt := topAltScan p 0
      let isStartAnchored := p.headD 0 == byte '^'
      let q := if isStartAnchored then p.drop 1 else p
      let (buf0, restAfter) := if hasTopAlt then (([] : List Nat), ([] : List Nat))
        else preScanB 255 q
      let nextC := restAfter.headD 0
      let buf := if buf0.length > 0 && (nextC == byte '*' || nextC == byte '?')
        then [] else buf0
      let hasFirst := buf.length > 0
      let bcEligible := hasFirst && !isStartAnchored && decide (buf.length ≥ 3)
          && !anchoredEnd
      let skipT : Nat → Nat :=
        if bcEligible then
          (List.range (buf.length - 1)).foldl
            (fun t i => updFun t (buf.getD i 0) (buf.length - 1 - i))
            (fun _ => buf.length)
        else fun _ => 0
      some (.mk
        { start := some f.start
          nodes := nodes
          anchoredEnd := anchoredEnd
          hasDotstarUnanchored := p == str ".*"
          hasFirstChar := hasFirst
          firstChar := if hasFirst then buf.headD 0 else 0
          litPre := if bcEligible then buf else []
          badCharEnabled := bcEligible
          badCharSkip := skipT } none [])

/-- One level of `vibrex_compile`: NULL/oversize checks, then the probes in
their fixed order, then the DFA, then the general NFA path; `comp` performs
the nested sub-pattern compiles of the advanced optimizer. -/
def compileTop (comp : List Nat → Option Compiled) (p : List Nat) : Option Compiled :=
  if p.length > 65536 then none
  else
    match compileBothAnchorsOpt p with
    | some ba => some (.mk { bothAnchors := some ba } none [])
    | none =>
      match compileUrlPatternOpt p with
      | some t => some (.mk { urlTable := some t } none [])
      | none =>
        match compileLiteralAltOpt p with
        | some alts => some (.mk { literalAlt := some alts } none [])
        | none =>
          match compileAdvancedG comp p with
          | some parts =>
            some (.mk
              { hasAdvAlt := true
                advPre := parts.pre
                advSuf := parts.suf
                advDs := parts.flags } parts.sufPat parts.alts)
          | none =>
            if canCompileToDfa p then
              match (if p.contains (byte '|') then compileAlternationToDfa p
                else compileLiteralToDfa p) with
              | some d => some (.mk { dfa := some d } none [])
              | none => nfaTailCompile p
            else nfaTailCompile p

/-- `vibrex_compile`.  The fuel bounds the nesting of sub-pattern compiles
(which is at most 2 in reality, since sub-patterns of the advanced optimizer
contain no `|`). -/
def vibrexCompileF : Nat → List Nat → Option Compiled
  | 0, _ => none
  | fuel + 1, p => compileTop (fun q => vibrexCompileF fuel q) p

/-- The standard entry fuel: deep enough for every reachable nesting. -/
def vibrexCompile (p : List Nat) : Option Compiled :=
  vibrexCompileF 8 p

/-!
## NFA simulator (`addstate_pos`, `step`, `is_end_match`, the match loops)

The per-state `lastlist` tags are a table `last : Nat → Nat` and the global
`listid` counter is threaded explicitly; both are mutated exactly where the C
code mutates them.  `addstate_pos`'s recursion terminates because every
recursive call happens right after marking a previously unmarked state, so a
gas of `nodes.length + 1` (`gasFor`) is never exhausted.
-/

/-- `addstate_pos`: epsilon-closure insertion into a frontier, marking states
with the current `listid`. -/
def addstateT (nodes : List Node) (li : Nat) (pos : Int) :
    Nat → Option Nat → (Nat → Nat) × List Nat → (Nat → Nat) × List Nat
  | 0, _, acc => acc
  | _ + 1, none, acc => acc
  | gas + 1, some i, (last, f) =>
    match nodes.get? i with
    | none => (last, f)
    | some nd =>
      if last i == li then (last, f)
      else
        let last' := fun j => if j == i then li else last j
        match nd.ty with
        | .split =>
          addstateT nodes li pos gas nd.out1 (addstateT nodes li pos gas nd.out (last', f))
        | .startAnchor =>
          if pos == 0 then addstateT nodes li pos gas nd.out (last', f) else (last', f)
        | _ => (last', f ++ [i])

/-- Sufficient gas for `addstateT` (recursion depth is bounded by the number
of freshly marked states plus one). -/
def gasFor (nodes : List Node) : Nat := nodes.length + 1

/-- `ismatch`. -/
def ismatchL (nodes : List Node) (l : List Nat) : Bool :=
  l.any (fun i =>
    match nodes.get? i with
    | some nd => nd.ty.isMatch
    | none => false)

/-- `step`: advance the frontier over one input byte (increments `listid`,
then builds the next list from an empty one). -/
def stepT (nodes : List Node) (li : Nat) (last : Nat → Nat) (clist : List Nat) (c : Nat) :
    Nat × (Nat → Nat) × List Nat :=
  let li := li + 1
  let (last, nl) := clist.foldl (fun acc i =>
    match nodes.get? i with
    | none => acc
    | some nd =>
      match nd.ty with
      | .ch c2 => if c2 == c then addstateT nodes li (-1) (gasFor nodes) nd.out acc else acc
      | .anyc => addstateT nodes li (-1) (gasFor nodes) nd.out acc
      | .cls bm => if bm c then addstateT nodes li (-1) (gasFor nodes) nd.out acc else acc
      | _ => acc) (last, ([] : List Nat))
  (li, last, nl)

/-- `is_end_match`: a `Match` in the frontier accepts outright; an `EndAnchor`
accepts, when the text is exhausted, if the epsilon closure of its `out`
reaches `Match` (computed with a fresh `listid`, mutating the tags). -/
def isEndMatchT (nodes : List Node) (atEnd : Bool) :
    List Nat → Nat → (Nat → Nat) → Bool × Nat × (Nat → Nat)
  | [], li, last => (false, li, last)
  | i :: r, li, last =>
    match nodes.get? i with
    | none => isEndMatchT nodes atEnd r li last
    | some nd =>
      if nd.ty.isMatch then (true, li, last)
      else if nd.ty.isEndAnchor && atEnd then
        let li := li + 1
        let (last', tmp) := addstateT nodes li (-1) (gasFor nodes) nd.out (last, [])
        if ismatchL nodes tmp then (true, li, last')
        else isEndMatchT nodes atEnd r li last'
      else isEndMatchT nodes atEnd r li last

/-- The shared inner byte loop of the match routines: step, break on an empty
frontier (the subsequent end check on the empty list is a no-op returning
false), accept early when not end-anchored, and run the final end check at
text end. -/
def innerRunT (nodes : List Node) (anchoredEnd : Bool) :
    List Nat → List Nat → Nat → (Nat → Nat) → Bool × Nat × (Nat → Nat)
  | [], clist, li, last => isEndMatchT nodes true clist li last
  | c :: rest, clist, li, last =>
    let (li, last, nl) := stepT nodes li last clist c
    if nl.isEmpty then (false, li, last)
    else if !anchoredEnd && ismatchL nodes nl then (true, li, last)
    else innerRunT nodes anchoredEnd rest nl li last

/-- The generic start-offset loop of `vibrex_match` (offsets `0..textlen`,
only offset 0 when start-anchored). -/
def genLoopT (nodes : List Node) (anchoredEnd : Bool) (start : Option Nat)
    (text : List Nat) : Nat → Nat → Nat → (Nat → Nat) → Bool × Nat × (Nat → Nat)
  | 0, _, li, last => (false, li, last)
  | cnt + 1, i, li, last =>
    let li := li + 1
    let (last, clist) := addstateT nodes li (Int.ofNat i) (gasFor nodes) start (last, [])
    let (b1, li, last) := isEndMatchT nodes (i == text.length) clist li last
    if b1 && (!anchoredEnd || i == text.length) then (true, li, last)
    else
      let (b2, li, last) := innerRunT nodes anchoredEnd (text.drop i) clist li last
      if b2 then (true, li, last)
      else genLoopT nodes anchoredEnd start text cnt (i + 1) li last

/-- The first-required-byte loop of `vibrex_match` (`strchr` candidates). -/
def fcLoopT (nodes : List Node) (anchoredEnd : Bool) (start : Option Nat) (fc : Nat)
    (text : List Nat) : Nat → Nat → Nat → (Nat → Nat) → Bool × Nat × (Nat → Nat)
  | 0, _, li, last => (false, li, last)
  | f + 1, cur, li, last =>
    match strchrIdx text cur fc with
    | none => (false, li, last)
    | some k =>
      let li := li + 1
      let (last, clist) := addstateT nodes li (Int.ofNat k) (gasFor nodes) start (last, [])
      if !anchoredEnd && ismatchL nodes clist then (true, li, last)
      else
        let (b2, li, last) := innerRunT nodes anchoredEnd (text.drop k) clist li last
        if b2 then (true, li, last)
        else fcLoopT nodes anchoredEnd start fc text f (k + 1) li last

/-- Inner right-to-left comparison of `boyer_moore_search`: index of the
rightmost mismatching position, if any. -/
def bmMismatchAux (pat txt : List Nat) (skip : Nat) : Nat → Option Nat
  | 0 => none
  | k + 1 =>
    if pat.getD k 0 == txt.getD (skip + k) 0 then bmMismatchAux pat txt skip k
    else some k

/-- `boyer_moore_search` over a text suffix, returning the candidate offset
relative to that suffix.  Each iteration advances `skip` by at least 1. -/
def bmSearchF (pat : List Nat) (skipT : Nat → Nat) (txt : List Nat) :
    Nat → Nat → Option Nat
  | 0, _ => none
  | f + 1, skip =>
    if txt.length < pat.length + skip then none
    else
      match bmMismatchAux pat txt skip pat.length with
      | none => some skip
      | some j =>
        let cs := skipT (txt.getD (skip + j) 0)
        bmSearchF pat skipT txt f (skip + max cs 1)

/-- Outcome of the Boyer-Moore prefix-consumption loop. -/
inductive Trip : Type where
  | hit
  | dead
  | alive (clist : List Nat)

/-- First inner loop of the Boyer-Moore branch: simulate the bytes of the
literal prefix one at a time (with the same break/accept structure as
`innerRunT` but no end check). -/
def bmPreRunT (nodes : List Node) (anchoredEnd : Bool) :
    List Nat → List Nat → Nat → (Nat → Nat) → Trip × Nat × (Nat → Nat)
  | [], clist, li, last => (.alive clist, li, last)
  | c :: rest, clist, li, last =>
    let (li, last, nl) := stepT nodes li last clist c
    if nl.isEmpty then (.dead, li, last)
    else if !anchoredEnd && ismatchL nodes nl then (.hit, li, last)
    else bmPreRunT nodes anchoredEnd rest nl li last

/-- Candidate loop of the Boyer-Moore branch of `vibrex_match`. -/
def bmLoopT (nodes : List Node) (anchoredEnd : Bool) (start : Option Nat)
    (pat : List Nat) (skipT : Nat → Nat) (text : List Nat) :
    Nat → Nat → Nat → (Nat → Nat) → Bool × Nat × (Nat → Nat)
  | 0, _, li, last => (false, li, last)
  | f + 1, cur, li, last =>
    match bmSearchF pat skipT (text.drop cur) (text.length + 1) 0 with
    | none => (false, li, last)
    | some rel =>
      let cand := cur + rel
      let li := li + 1
      let (last, clist) := addstateT nodes li (Int.ofNat cand) (gasFor nodes) start (last, [])
      if !anchoredEnd && ismatchL nodes clist then (true, li, last)
      else
        let preBytes := (text.drop cand).take pat.length
        let (tr, li, last) := bmPreRunT nodes anchoredEnd preBytes clist li last
        match tr with
        | .hit => (true, li, last)
        | .dead =>
          -- the second C loop performs one `step` on the now-empty frontier
          -- (a bare listid increment) when bytes remain, then breaks; the
          -- final end check on the empty list fails
          let li := if cand + pat.length < text.length then li + 1 else li
          bmLoopT nodes anchoredEnd start pat skipT text f (cand + 1) li last
        | .alive clist =>
          let (b2, li, last) :=
            innerRunT nodes anchoredEnd (text.drop (cand + pat.length)) clist li last
          if b2 then (true, li, last)
          else bmLoopT nodes anchoredEnd start pat skipT text f (cand + 1) li last

/-- The NFA-simulation tail of `vibrex_match` (everything after the
specialized matchers): Boyer-Moore branch, first-byte branch, or the generic
offset loop. -/
def nfaPathRunT (b : CompiledBase) (text : List Nat) (li : Nat) (last : Nat → Nat) :
    Bool × Nat × (Nat → Nat) :=
  let isStartAnch :=
    match b.start with
    | some i =>
      match b.nodes.get? i with
      | some nd => nd.ty.isStartAnchor
      | none => false
    | none => false
  if b.badCharEnabled then
    bmLoopT b.nodes b.anchoredEnd b.start b.litPre b.badCharSkip text
      (text.length + 2) 0 li last
  else if !isStartAnch && b.hasFirstChar then
    fcLoopT b.nodes b.anchoredEnd b.start b.firstChar text (text.length + 2) 0 li last
  else
    let maxI := if isStartAnch then 0 else text.length
    genLoopT b.nodes b.anchoredEnd b.start text (maxI + 1) 0 li last

/-!
## Runtime store

The mutable `lastlist` tags of a compiled pattern and of its nested
sub-patterns live in a tree alongside the immutable `Compiled` value: child 0
belongs to `advSufPat`, child `1+i` to `advAlts[i]`.  A missing child reads as
all-zero tags and writes to it are dropped; this only ever loses stale marks,
which the simulator treats exactly like zero tags.
-/

inductive Store : Type where
  | mk (last : Nat → Nat) (children : List Store) : Store

def Store.last : Store → Nat → Nat
  | .mk l _ => l

def Store.children : Store → List Store
  | .mk _ c => c

def emptyStore : Store := .mk (fun _ => 0) []

def Store.child (s : Store) (k : Nat) : Store := s.children.getD k emptyStore

def Store.withLast (s : Store) (l : Nat → Nat) : Store := .mk l s.children

def Store.withChild (s : Store) (k : Nat) (c : Store) : Store :=
  .mk s.last (s.children.set k c)

/-- Fresh all-zero store matching the shape of a compiled pattern (every
`lastlist` is 0 right after `compile`). -/
def initStoreF : Nat → Compiled → Store
  | 0, _ => emptyStore
  | fuel + 1, c =>
    let spSt :=
      match c.advSufPat with
      | some sp => initStoreF fuel sp
      | none => emptyStore
    let altSts := c.advAlts.map (fun e =>
      match e.2 with
      | some sub => initStoreF fuel sub
      | none => emptyStore)
    .mk (fun _ => 0) (spSt :: altSts)

def initStore (c : Compiled) : Store := initStoreF 8 c

/-!
## Specialized matchers and the `vibrex_match` dispatch
-/

/-- `match_with_both_anchors_opt`. -/
def matchBothAnchors (pre suf text : List Nat) : Bool :=
  if !cStrncmpEq text pre pre.length then false
  else if suf.length == 0 then true
  else if text.length < pre.length + suf.length then false
  else cStrncmpEq (text.drop (text.length - suf.length)) suf suf.length

/-- Candidate loop of `match_with_url_pattern_opt` (each failed candidate
restarts the `strstr` one byte later). -/
def matchUrlGo (table : Nat → Bool) : Nat → List Nat → Bool
  | 0, _ => false
  | f + 1, t =>
    match cStrstrIdx t (str "http") with
    | none => false
    | some i =>
      let after := t.drop (i + 4)
      let after2 := if after.headD 0 == byte 's' then after.drop 1 else after
      if (str "://").isPrefixOf after2 then
        let rest := after2.drop 3
        if rest.headD 0 != 0 && table (rest.headD 0) then true
        else matchUrlGo table f (t.drop (i + 1))
      else matchUrlGo table f (t.drop (i + 1))

/-- `match_with_url_pattern_opt`. -/
def matchWithUrl (table : Nat → Bool) (text : List Nat) : Bool :=
  matchUrlGo table (text.length + 1) text

/-- `match_with_literal_alt_opt`: substring-search each stored alternative. -/
def matchWithLiteralAlt (alts : List (List Nat)) (text : List Nat) : Bool :=
  alts.any (fun a => (cStrstrIdx text a).isSome)

/-- Type of the nested-`vibrex_match` callback used by the advanced
alternation matcher. -/
abbrev MatchCb := Nat → Store → Compiled → List Nat → Bool × Nat × Store

/-- `match_single_alternative` (store child `k` holds the tags of this
alternative's compiled sub-pattern). -/
def matchSingleAltT (cb : MatchCb) (li : Nat) (st : Store) (k : Nat)
    (asb : AltSufBase) (sub : Option Compiled) (text : List Nat) : Bool × Nat × Store :=
  let noCore : Bool :=
    match asb.core with
    | none => true
    | some c => c.length == 0
  if noCore then
    match asb.ty with
    | .lit => (text.length == 0, li, st)
    | .rgx => (false, li, st)
    | _ => (true, li, st)
  else
    match asb.core with
    | none => (false, li, st)
    | some core =>
      match asb.ty with
      | .lit => (decide (text.length = core.length) && cStrcmpEq text core, li, st)
      | .dsPre => ((cStrstrIdx text core).isSome, li, st)
      | .dsSuf => (decide (text.length ≥ core.length) && cStrncmpEq text core core.length, li, st)
      | .dsWrap => ((cStrstrIdx text core).isSome, li, st)
      | .rgx =>
        match sub with
        | some sp =>
          let (b, li, cst) := cb li (st.child k) sp text
          (b, li, st.withChild k cst)
        | none => (false, li, st)

/-- Mixed-shape loop of `match_dotstar_patterns`. -/
def matchMixedLoopT (cb : MatchCb) (text : List Nat) :
    List (AltSufBase × Option Compiled) → Nat → Nat → Store → Bool × Nat × Store
  | [], _, li, st => (false, li, st)
  | (asb, sub) :: rest, k, li, st =>
    let (b, li, st) := matchSingleAltT cb li st k asb sub text
    if b then (true, li, st)
    else matchMixedLoopT cb text rest (k + 1) li st

/-- `match_dotstar_patterns`. -/
def matchDotstarT (cb : MatchCb) (flags : DsFlags)
    (alts : List (AltSufBase × Option Compiled)) (text : List Nat)
    (li : Nat) (st : Store) : Bool × Nat × Store :=
  if flags.dsMixed then matchMixedLoopT cb text alts 1 li st
  else if flags.dsWrap then
    (alts.any (fun e =>
      match e.1.litSuf with
      | some l => (cStrstrIdx text l).isSome
      | none => e.2.isNone), li, st)
  else if flags.dsPre then
    (alts.any (fun e =>
      match e.1.litSuf with
      | some l => decide (text.length ≥ l.length)
          && cStrcmpEq (text.drop (text.length - l.length)) l
      | none => e.2.isNone), li, st)
  else if flags.dsSuf then
    (alts.any (fun e =>
      match e.1.litSuf with
      | some l => decide (text.length ≥ l.length) && cStrncmpEq text l l.length
      | none => e.2.isNone), li, st)
  else (false, li, st)

/-- Suffix-window loop of `match_suffix_pattern` when the common suffix was
compiled as a sub-pattern: try windows `i = 0, 1, ...` while
`i ≤ text_len && i ≤ suffix_len + 10`. -/
def matchSufPatLoopT (cb : MatchCb) (sp : Compiled) (text : List Nat) (sufLen : Nat) :
    Nat → Nat → Nat → Store → Option Nat × Nat × Store
  | 0, _, li, st => (none, li, st)
  | rem + 1, i, li, st =>
    if i > text.length || i > sufLen + 10 then (none, li, st)
    else
      let (b, li, cst) := cb li (st.child 0) sp (text.drop (text.length - i))
      let st := st.withChild 0 cst
      if b then (some (text.length - i), li, st)
      else matchSufPatLoopT cb sp text sufLen rem (i + 1) li st

/-- `match_suffix_pattern`: the end offset of the middle part, if the suffix
matches. -/
def matchSufT (cb : MatchCb) (suf : List Nat) (spOpt : Option Compiled)
    (text : List Nat) (li : Nat) (st : Store) : Option Nat × Nat × Store :=
  if suf.length == 0 then (some text.length, li, st)
  else
    match spOpt with
    | some sp => matchSufPatLoopT cb sp text suf.length (text.length + suf.length + 12) 0 li st
    | none =>
      if text.length < suf.length
          || !cStrcmpEq (text.drop (text.length - suf.length)) suf then
        (none, li, st)
      else (some (text.length - suf.length), li, st)

/-- `match_alternatives` over the middle part (store child `1+i` belongs to
alternative `i`). -/
def matchAltsLoopT (cb : MatchCb) (middle : List Nat) (middleLen : Nat) :
    List (AltSufBase × Option Compiled) → Nat → Nat → Store → Bool × Nat × Store
  | [], _, li, st => (false, li, st)
  | (asb, sub) :: rest, k, li, st =>
    let (b, li, st) :=
      match asb.litSuf with
      | some l =>
        if middleLen > 0 then (cStrcmpEq middle l, li, st)
        else (l == ([] : List Nat), li, st)
      | none =>
        match sub with
        | some sp =>
          if middleLen > 0 then
            let (b, li, cst) := cb li (st.child k) sp middle
            (b, li, st.withChild k cst)
          else (false, li, st)
        | none => (middleLen == 0, li, st)
    if b then (true, li, st)
    else matchAltsLoopT cb middle middleLen rest (k + 1) li st

/-- `match_with_advanced_alternation_opt`.  (When the suffix window ends
before the prefix does, the C code computes a negative middle length, whose
huge `size_t` value makes the allocation fail and the match return false;
hence the explicit `matchEnd < prefix` failure here.) -/
def matchAdvT (cb : MatchCb) (b : CompiledBase) (spOpt : Option Compiled)
    (alts : List (AltSufBase × Option Compiled)) (text : List Nat)
    (li : Nat) (st : Store) : Bool × Nat × Store :=
  if b.advDs.dsPre || b.advDs.dsSuf || b.advDs.dsMixed then
    matchDotstarT cb b.advDs alts text li st
  else
    if b.advPre.length > 0 &&
        (decide (text.length < b.advPre.length)
          || !cStrncmpEq text b.advPre b.advPre.length) then
      (false, li, st)
    else
      let (me, li, st) := matchSufT cb b.advSuf spOpt text li st
      match me with
      | none => (false, li, st)
      | some matchEnd =>
        if matchEnd < b.advPre.length then (false, li, st)
        else
          let middleLen := matchEnd - b.advPre.length
          let middle := (text.take matchEnd).drop b.advPre.length
          matchAltsLoopT cb middle middleLen alts 1 li st

/-- One level of `vibrex_match`: the dispatch over the specialized matchers
in their fixed order, falling through to the NFA simulation. -/
def matchStepT (cb : MatchCb) (li : Nat) (st : Store) (c : Compiled) (text : List Nat) :
    Bool × Nat × Store :=
  let b := c.base
  match b.bothAnchors with
  | some ba => (matchBothAnchors ba.1 ba.2 text, li, st)
  | none =>
    match b.urlTable with
    | some table => (matchWithUrl table text, li, st)
    | none =>
      match b.literalAlt with
      | some alts => (matchWithLiteralAlt alts text, li, st)
      | none =>
        if b.hasAdvAlt then matchAdvT cb b c.advSufPat c.advAlts text li st
        else
          match b.dfa with
          | some d => (dfaMatch d text, li, st)
          | none =>
            if b.hasDotstarUnanchored then (true, li, st)
            else
              let (r, li2, last) := nfaPathRunT b text li st.last
              (r, li2, st.withLast last)

/-- `vibrex_match` with the mutable state made explicit: takes and returns
the global `listid` and the pattern's tag store.  The fuel bounds sub-pattern
nesting (at most 2 for every pattern `vibrex_compile` can build). -/
def vibrexMatchRunF : Nat → Nat → Store → Compiled → List Nat → Bool × Nat × Store
  | 0, li, st, _, _ => (false, li, st)
  | fuel + 1, li, st, c, text =>
    matchStepT (fun li2 st2 c2 t2 => vibrexMatchRunF fuel li2 st2 c2 t2) li st c text

def vibrexMatchRun (li : Nat) (st : Store) (c : Compiled) (text : List Nat) :
    Bool × Nat × Store :=
  vibrexMatchRunF 8 li st c text

/-- `vibrex_match` from a fresh engine state (`listid = 1`, all tags 0, as
right after `compile`); a failed compilation (NULL pattern) matches nothing. -/
def vibrexMatch (cOpt : Option Compiled) (text : List Nat) : Bool :=
  match cOpt with
  | none => false
  | some c => (vibrexMatchRun 1 (initStore c) c text).1

/-- The reference general-NFA interpretation of a pattern: compile through the
parser/Thompson path only (all specializations disabled) and match with the
NFA simulator. -/
def nfaOnlyMatch (p : List Nat) (text : List Nat) : Bool :=
  match nfaTailCompile p with
  | none => false
  | some c => (vibrexMatchRun 1 (initStore c) c text).1

/-- The pattern `a|a|...|a` with `n` alternation operators (n+1 single-byte
alternatives), used to probe the alternation-count limit. -/
def altPat (n : Nat) : List Nat :=
  Nat.rec [97] (fun _ ih => 97 :: 124 :: ih) n

/-- Invariant of `addstate_pos`: the frontier has no duplicates, and every
frontier member is marked with the current `listid` and is a valid state
index. -/
def AddInv (nodes : List Node) (li : Nat) (p : (Nat → Nat) × List Nat) : Prop :=
  p.2.Nodup ∧ ∀ i ∈ p.2, p.1 i = li ∧ i < nodes.length

/-- All `lastlist` tags are at most the current `listid` (true at rest: right
after compilation everything is 0 and `listid` is positive, and every match
loop bumps `listid` before tagging). -/
def TagLe (li : Nat) (l : Nat → Nat) : Prop := ∀ i, l i ≤ li

/-- Two tag tables agree relative to their own `listid`s: both are bounded
and they mark exactly the same states as current. -/
def TagSync (li₁ li₂ : Nat) (l₁ l₂ : Nat → Nat) : Prop :=
  TagLe li₁ l₁ ∧ TagLe li₂ l₂ ∧ ∀ i, (l₁ i == li₁) = (l₂ i == li₂)

/-- Relation between the results of two synchronized runs of one of the match
loops: same boolean, `listid` did not decrease, and the returned tag tables
are bounded by the returned `listid`s. -/
def RunSync (li₁ li₂ : Nat) (r₁ r₂ : Bool × Nat × (Nat → Nat)) : Prop :=
  r₁.1 = r₂.1 ∧ li₁ ≤ r₁.2.1 ∧ li₂ ≤ r₂.2.1 ∧
  TagLe r₁.2.1 r₁.2.2 ∧ TagLe r₂.2.1 r₂.2.2

/-- All `lastlist` tags in a store (the pattern's own and every nested
sub-pattern's) are bounded by `li`. -/
inductive StoreLe : Nat → Store → Prop where
  | mk {li : Nat} {l : Nat → Nat} {c : List Store} :
      TagLe li l →
      (∀ k, k < c.length → StoreLe li (c.getD k emptyStore)) →
      StoreLe li (.mk l c)

/-- Two stores have the same tree shape (child counts agree recursively). -/
inductive ShapeEq : Store → Store → Prop where
  | mk {l₁ l₂ : Nat → Nat} {c₁ c₂ : List Store} :
      c₁.length = c₂.length →
      (∀ k, k < c₁.length → ShapeEq (c₁.getD k emptyStore) (c₂.getD k emptyStore)) →
      ShapeEq (.mk l₁ c₁) (.mk l₂ c₂)

/-- Relation between the `(result, listid, store)` triples of two synchronized
invocations of a store-threading match routine. -/
def MRel {α : Type} (li₁ li₂ : Nat) (st₁ st₂ : Store) (r₁ r₂ : α × Nat × Store) : Prop :=
  r₁.1 = r₂.1 ∧ li₁ ≤ r₁.2.1 ∧ li₂ ≤ r₂.2.1 ∧
  StoreLe r₁.2.1 r₁.2.2 ∧ StoreLe r₂.2.1 r₂.2.2 ∧
  ShapeEq st₁ r₁.2.2 ∧ ShapeEq st₂ r₂.2.2

/-- The nested-match callback respects the synchronization relation. -/
def CbSync (cb : MatchCb) : Prop :=
  ∀ (c : Compiled) (text : List Nat) (li₁ li₂ : Nat) (st₁ st₂ : Store),
    StoreLe li₁ st₁ → StoreLe li₂ st₂ → ShapeEq st₁ st₂ →
    MRel li₁ li₂ st₁ st₂ (cb li₁ st₁ c text) (cb li₂ st₂ c text)

/-!
# Theorems
-/

section Lemmas

theorem altPat_zero : altPat 0 = [97] := rfl

theorem altPat_succ (n : Nat) : altPat (n + 1) = 97 :: 124 :: altPat n := rfl

theorem altPat_length (n : Nat) : (altPat n).length = 2 * n + 1 := by
  induction n with
  | zero => rfl
  | succ n ih => rw [altPat_succ]; simp [ih]; omega

theorem altPat_count (n : Nat) : (altPat n).count 124 = n := by
  induction n with
  | zero => rfl
  | succ n ih => rw [altPat_succ]; simp [List.count_cons, ih]

theorem laScan_cons_a (r : List Nat) (d : Nat) (ha ig : Bool) :
    laScan (97 :: r) d ha ig = laScan r d ha ig := by
  rw [laScan.eq_def]; simp [byte, inSet, str]

theorem laScan_cons_pipe (r : List Nat) (d : Nat) (ha ig : Bool) :
    laScan (124 :: r) d ha ig = laScan r d true ig := by
  rw [laScan.eq_def]; simp [byte, inSet, str]

theorem laScan_altPat (n : Nat) (ha ig : Bool) :
    laScan (altPat n) 0 ha ig = (ha || decide (0 < n)) := by
  induction n generalizing ha with
  | zero =>
    rw [altPat_zero, laScan_cons_a, laScan.eq_def]
    simp
  | succ n ih =>
    rw [altPat_succ, laScan_cons_a, laScan_cons_pipe, ih true]
    simp

theorem canUseLiteralAltOpt_altPat (n : Nat) (h : 0 < n) :
    canUseLiteralAltOpt (altPat n) = true := by
  unfold canUseLiteralAltOpt
  simp only [laScan_altPat]
  simp [h]

theorem canUseBothAnchorsOpt_false_of_head (p : List Nat) (h : p.getD 0 0 ≠ byte '^') :
    canUseBothAnchorsOpt p = false := by
  unfold canUseBothAnchorsOpt
  have hb : (p.getD 0 0 != byte '^') = true := by
    simp only [bne_iff_ne, ne_eq]
    exact h
  simp only [hb, Bool.or_true, Bool.true_or, if_true]

theorem compileBothAnchorsOpt_none (p : List Nat) (h : canUseBothAnchorsOpt p = false) :
    compileBothAnchorsOpt p = none := by
  unfold compileBothAnchorsOpt
  simp [h]

theorem canUseUrlPatternOpt_false_of_head (p : List Nat)
    (h : (str "http").isPrefixOf p = false) : canUseUrlPatternOpt p = false := by
  unfold canUseUrlPatternOpt
  simp [h]

theorem compileUrlPatternOpt_none (p : List Nat) (h : canUseUrlPatternOpt p = false) :
    compileUrlPatternOpt p = none := by
  unfold compileUrlPatternOpt
  simp [h]

theorem get?_lt_length {nodes : List Node} {i : Nat} {nd : Node}
    (h : nodes.get? i = some nd) : i < nodes.length := by
  by_contra hlt
  rw [List.get?_eq_none.mpr (by omega)] at h
  exact Option.noConfusion h

theorem addstateT_inv (nodes : List Node) (li : Nat) (pos : Int) :
    ∀ gas (s : Option Nat) (p : (Nat → Nat) × List Nat), AddInv nodes li p →
      AddInv nodes li (addstateT nodes li pos gas s p) ∧
      (∀ j, p.1 j = li → (addstateT nodes li pos gas s p).1 j = li) := by
  intro gas
  induction gas with
  | zero =>
    intro s p hp
    rw [addstateT.eq_1]
    exact ⟨hp, fun _ hj => hj⟩
  | succ gas ih =>
    intro s p hp
    obtain ⟨last, f⟩ := p
    obtain ⟨hnd, hm⟩ := hp
    cases s with
    | none => exact ⟨⟨hnd, hm⟩, fun _ hj => hj⟩
    | some i =>
      rw [addstateT.eq_3]
      cases hg : nodes.get? i with
      | none => exact ⟨⟨hnd, hm⟩, fun _ hj => hj⟩
      | some nd =>
        simp only
        by_cases hmark : (last i == li) = true
        · rw [if_pos hmark]
          exact ⟨⟨hnd, hm⟩, fun _ hj => hj⟩
        · rw [if_neg hmark]
          have hpres : ∀ j, last j = li →
              (fun j => if (j == i) = true then li else last j) j = li := by
            intro j hj
            by_cases h : (j == i) = true <;> simp [h, hj]
          have hm2 : AddInv nodes li
              ((fun j => if (j == i) = true then li else last j), f) := by
            refine ⟨hnd, fun j hj => ⟨hpres j (hm j hj).1, (hm j hj).2⟩⟩
          have hdefault : AddInv nodes li
                ((fun j => if (j == i) = true then li else last j), f ++ [i]) ∧
              ∀ j, last j = li →
                (fun j => if (j == i) = true then li else last j) j = li := by
            refine ⟨⟨?_, ?_⟩, hpres⟩
            · refine List.Nodup.append hnd (List.nodup_singleton i) ?_
              intro a ha hb
              rw [List.mem_singleton] at hb
              subst hb
              have := (hm a ha).1
              simp at hmark
              exact hmark this
            · intro j hj
              rcases List.mem_append.mp hj with hj | hj
              · exact ⟨hpres j (hm j hj).1, (hm j hj).2⟩
              · rw [List.mem_singleton] at hj
                subst hj
                exact ⟨by simp, get?_lt_length hg⟩
          cases hty : nd.ty with
          | split =>
            have H1 := ih nd.out _ hm2
            have H2 := ih nd.out1 _ H1.1
            refine ⟨H2.1, fun j hj => H2.2 j (H1.2 j (hpres j hj))⟩
          | startAnchor =>
            by_cases hpos : (pos == 0) = true
            · rw [if_pos hpos]
              have H1 := ih nd.out _ hm2
              exact ⟨H1.1, fun j hj => H1.2 j (hpres j hj)⟩
            · rw [if_neg hpos]
              exact ⟨hm2, fun j hj => hpres j hj⟩
          | ch c => exact hdefault
          | anyc => exact hdefault
          | cls bm => exact hdefault
          | matchS => exact hdefault
          | endAnchor => exact hdefault

theorem nodup_bounded_length_le {l : List Nat} {n : Nat}
    (hnd : l.Nodup) (hb : ∀ i ∈ l, i < n) : l.length ≤ n := by
  have hsub : l.toFinset ⊆ Finset.range n := by
    intro a ha
    rw [List.mem_toFinset] at ha
    exact Finset.mem_range.mpr (hb a ha)
  have hc := Finset.card_le_card hsub
  rwa [List.toFinset_card_of_nodup hnd, Finset.card_range] at hc

theorem stepT_snd_inv (nodes : List Node) (li : Nat) (last : Nat → Nat)
    (clist : List Nat) (c : Nat) :
    AddInv nodes (li + 1) (stepT nodes li last clist c).2 := by
  have hfold : ∀ (cl : List Nat) (acc : (Nat → Nat) × List Nat),
      AddInv nodes (li + 1) acc →
      AddInv nodes (li + 1) (cl.foldl (fun acc i =>
        match nodes.get? i with
        | none => acc
        | some nd =>
          match nd.ty with
          | .ch c2 => if c2 == c then addstateT nodes (li + 1) (-1) (gasFor nodes) nd.out acc else acc
          | .anyc => addstateT nodes (li + 1) (-1) (gasFor nodes) nd.out acc
          | .cls bm => if bm c then addstateT nodes (li + 1) (-1) (gasFor nodes) nd.out acc else acc
          | _ => acc) acc) := by
    intro cl
    induction cl with
    | nil => intro acc h; exact h
    | cons i r ih =>
      intro acc h
      rw [List.foldl_cons]
      refine ih _ ?_
      cases hg : nodes.get? i with
      | none => simpa [hg] using h
      | some nd =>
        simp only [hg]
        cases nd.ty with
        | ch c2 =>
          by_cases hc2 : (c2 == c) = true
          · simpa [hc2] using (addstateT_inv nodes (li + 1) (-1) (gasFor nodes) nd.out acc h).1
          · simpa [hc2] using h
        | anyc => exact (addstateT_inv nodes (li + 1) (-1) (gasFor nodes) nd.out acc h).1
        | cls bm =>
          by_cases hbm : bm c = true
          · simpa [hbm] using (addstateT_inv nodes (li + 1) (-1) (gasFor nodes) nd.out acc h).1
          · simpa [hbm] using h
        | split => exact h
        | matchS => exact h
        | startAnchor => exact h
        | endAnchor => exact h
  have hstep : (stepT nodes li last clist c).2 = clist.foldl (fun acc i =>
        match nodes.get? i with
        | none => acc
        | some nd =>
          match nd.ty with
          | .ch c2 => if c2 == c then addstateT nodes (li + 1) (-1) (gasFor nodes) nd.out acc else acc
          | .anyc => addstateT nodes (li + 1) (-1) (gasFor nodes) nd.out acc
          | .cls bm => if bm c then addstateT nodes (li + 1) (-1) (gasFor nodes) nd.out acc else acc
          | _ => acc) (last, []) := rfl
  rw [hstep]
  exact hfold clist (last, []) ⟨List.nodup_nil, by intro i h; exact absurd h (List.not_mem_nil i)⟩





theorem bmPreRunT_anchored_no_hit (nodes : List Node) :
    ∀ (bytes clist : List Nat) (li : Nat) (last : Nat → Nat),
      (bmPreRunT nodes true bytes clist li last).1 ≠ Trip.hit
  | [], clist, li, last => by
    rw [bmPreRunT]
    simp
  | c :: rest, clist, li, last => by
    rw [bmPreRunT]
    rcases hst : stepT nodes li last clist c with ⟨li1, last1, nl⟩
    simp only
    by_cases he : nl.isEmpty = true
    · rw [if_pos he]
      simp
    · rw [if_neg he]
      rw [if_neg (by simp)]
      exact bmPreRunT_anchored_no_hit nodes rest nl li1 last1


theorem cStrncmpEq_eq_isPrefixOf :
    ∀ (b a : List Nat), cStrncmpEq a b b.length = true ↔ b <+: a
  | [], a => by
    cases a <;> simp [cStrncmpEq]
  | y :: ys, [] => by
    simp [cStrncmpEq]
  | y :: ys, x :: xs => by
    rw [List.length_cons]
    rw [show cStrncmpEq (x :: xs) (y :: ys) (ys.length + 1)
        = ((x == y) && cStrncmpEq xs ys ys.length) from rfl]
    rw [Bool.and_eq_true, beq_iff_eq, List.cons_prefix_cons]
    rw [cStrncmpEq_eq_isPrefixOf ys xs]
    exact ⟨fun ⟨h1, h2⟩ => ⟨h1.symm, h2⟩, fun ⟨h1, h2⟩ => ⟨h1.symm, h2⟩⟩

theorem cStrstrIdx_dotstar_none :
    ∀ (hay : List Nat), 46 ∉ hay → cStrstrIdx hay (str ".*") = none
  | [], _ => rfl
  | x :: t, h => by
    rw [cStrstrIdx.eq_def]
    simp only
    rw [if_neg]
    · rw [cStrstrIdx_dotstar_none t (fun hm => h (List.mem_cons_of_mem x hm))]
      rfl
    · intro hpf
      rw [show str ".*" = 46 :: [42] from rfl, List.isPrefixOf_iff_prefix,
        List.cons_prefix_cons] at hpf
      exact h (by rw [← hpf.1]; exact List.mem_cons_self _ t)

theorem cStrstrIdx_dotstar_pos :
    ∀ (l : List Nat) (r : List Nat), 46 ∉ l →
      cStrstrIdx (l ++ 46 :: 42 :: r) (str ".*") = some l.length
  | [], r, _ => by
    rw [cStrstrIdx.eq_def]
    simp only
    rw [if_pos]
    · rfl
    · rw [show str ".*" = 46 :: [42] from rfl, List.isPrefixOf_iff_prefix]
      simp
  | x :: l, r, h => by
    rw [cStrstrIdx.eq_def]
    simp only
    rw [if_neg]
    · show Option.map (fun n => n + 1) (cStrstrIdx (l ++ 46 :: 42 :: r) (str ".*"))
          = some (x :: l).length
      rw [cStrstrIdx_dotstar_pos l r (fun hm => h (List.mem_cons_of_mem x hm))]
      rfl
    · intro hpf
      rw [show str ".*" = 46 :: [42] from rfl, List.isPrefixOf_iff_prefix,
        List.cons_append, List.cons_prefix_cons] at hpf
      exact h (by rw [← hpf.1]; exact List.mem_cons_self _ l)

theorem getD_concat (l : List Nat) (a : Nat) : (l ++ [a]).getD l.length 0 = a := by
  induction l with
  | nil => rfl
  | cons x t ih => simp [ih]

theorem canUseBothAnchorsOpt_shape (pre suf : List Nat)
    (hpre : pre ≠ []) (hsuf : suf ≠ [])
    (hmpre : ∀ b ∈ pre, inSet metaAdv b = false)
    (hmsuf : ∀ b ∈ suf, inSet metaAdv b = false) :
    canUseBothAnchorsOpt (94 :: (pre ++ 46 :: 42 :: (suf ++ [36]))) = true := by
  have h46pre : 46 ∉ pre := fun hm => by
    have h := hmpre 46 hm
    rw [show inSet metaAdv 46 = true from rfl] at h
    exact Bool.noConfusion h
  have h46suf : (46 : Nat) ∉ suf ++ [36] := fun hm => by
    rcases List.mem_append.mp hm with hm | hm
    · have h := hmsuf 46 hm
      rw [show inSet metaAdv 46 = true from rfl] at h
      exact Bool.noConfusion h
    · rw [List.mem_singleton] at hm
      exact absurd hm (by decide)
  have hlen : (94 :: (pre ++ 46 :: 42 :: (suf ++ [36]))).length
      = pre.length + suf.length + 4 := by
    simp only [List.length_append, List.length_cons, List.length_nil]
    omega
  have hget0 : (94 :: (pre ++ 46 :: 42 :: (suf ++ [36]))).getD 0 0 = 94 := rfl
  have hgetlast : (94 :: (pre ++ 46 :: 42 :: (suf ++ [36]))).getD
      ((94 :: (pre ++ 46 :: 42 :: (suf ++ [36]))).length - 1) 0 = 36 := by
    have hre : (94 :: (pre ++ 46 :: 42 :: (suf ++ [36])))
        = (94 :: (pre ++ 46 :: 42 :: suf)) ++ [36] := by simp
    rw [hre]
    have hidx : ((94 :: (pre ++ 46 :: 42 :: suf)) ++ [36]).length - 1
        = (94 :: (pre ++ 46 :: 42 :: suf)).length := by
      simp only [List.length_append, List.length_cons, List.length_nil]
      omega
    rw [hidx, getD_concat]
  have hdrop1 : (94 :: (pre ++ 46 :: 42 :: (suf ++ [36]))).drop 1
      = pre ++ 46 :: 42 :: (suf ++ [36]) := rfl
  have hdrop2 : (94 :: (pre ++ 46 :: 42 :: (suf ++ [36]))).drop (1 + pre.length + 2)
      = suf ++ [36] := by
    have hre : (94 :: (pre ++ 46 :: 42 :: (suf ++ [36])))
        = (94 :: (pre ++ [46, 42])) ++ (suf ++ [36]) := by simp
    rw [hre]
    have hn : 1 + pre.length + 2 = (94 :: (pre ++ [46, 42])).length := by
      simp only [List.length_append, List.length_cons, List.length_nil]
      omega
    rw [hn, List.drop_left]
  simp only [canUseBothAnchorsOpt]
  rw [hget0, hgetlast, hlen]
  rw [decide_eq_false (by omega : ¬(pre.length + suf.length + 4 < 3))]
  rw [if_neg (by decide : ¬((false || (94 != byte '^') || (36 != byte '$')) = true))]
  rw [hdrop1, cStrstrIdx_dotstar_pos pre (suf ++ [36]) h46pre]
  simp only
  rw [hdrop2, cStrstrIdx_dotstar_none (suf ++ [36]) h46suf]
  rw [if_neg (by decide : ¬((none : Option Nat).isSome = true))]
  have hpl : 1 + pre.length - 1 = pre.length := by omega
  have hsl : pre.length + suf.length + 4 - 1 - (1 + pre.length + 2) = suf.length := by omega
  rw [hpl, hsl]
  rw [if_neg (by
    simp only [Bool.or_eq_true, beq_iff_eq, List.length_eq_zero]
    rintro (h | h)
    · exact hpre h
    · exact hsuf h)]
  rw [List.take_left]
  rw [if_neg (by
    rw [List.any_eq_false.mpr (by intro x hx; rw [hmpre x hx]; exact Bool.false_ne_true)]
    exact Bool.false_ne_true)]
  rw [List.take_left]
  rw [if_neg (by
    rw [List.any_eq_false.mpr (by intro x hx; rw [hmsuf x hx]; exact Bool.false_ne_true)]
    exact Bool.false_ne_true)]

theorem compileBothAnchorsOpt_shape (pre suf : List Nat)
    (hpre : pre ≠ []) (hsuf : suf ≠ [])
    (hmpre : ∀ b ∈ pre, inSet metaAdv b = false)
    (hmsuf : ∀ b ∈ suf, inSet metaAdv b = false) :
    compileBothAnchorsOpt (94 :: (pre ++ 46 :: 42 :: (suf ++ [36]))) = some (pre, suf) := by
  have h46pre : 46 ∉ pre := fun hm => by
    have h := hmpre 46 hm
    rw [show inSet metaAdv 46 = true from rfl] at h
    exact Bool.noConfusion h
  simp only [compileBothAnchorsOpt]
  rw [canUseBothAnchorsOpt_shape pre suf hpre hsuf hmpre hmsuf]
  rw [if_neg (by decide : ¬((!true) = true))]
  rw [show (94 :: (pre ++ 46 :: 42 :: (suf ++ [36]))).drop 1
      = pre ++ 46 :: 42 :: (suf ++ [36]) from rfl]
  rw [cStrstrIdx_dotstar_pos pre (suf ++ [36]) h46pre]
  simp only
  have hlen : (94 :: (pre ++ 46 :: 42 :: (suf ++ [36]))).length
      = pre.length + suf.length + 4 := by
    simp only [List.length_append, List.length_cons, List.length_nil]
    omega
  rw [hlen]
  have hpl : 1 + pre.length - 1 = pre.length := by omega
  have hsl : pre.length + suf.length + 4 - 1 - (1 + pre.length + 2) = suf.length := by omega
  rw [hpl, hsl]
  have hdrop2 : (94 :: (pre ++ 46 :: 42 :: (suf ++ [36]))).drop (1 + pre.length + 2)
      = suf ++ [36] := by
    have hre : (94 :: (pre ++ 46 :: 42 :: (suf ++ [36])))
        = (94 :: (pre ++ [46, 42])) ++ (suf ++ [36]) := by simp
    rw [hre]
    have hn : 1 + pre.length + 2 = (94 :: (pre ++ [46, 42])).length := by
      simp only [List.length_append, List.length_cons, List.length_nil]
      omega
    rw [hn, List.drop_left]
  rw [hdrop2]
  rw [List.take_left, List.take_left]

theorem vibrexCompile_bothAnchors_shape (pre suf : List Nat)
    (hpre : pre ≠ []) (hsuf : suf ≠ [])
    (hmpre : ∀ b ∈ pre, inSet metaAdv b = false)
    (hmsuf : ∀ b ∈ suf, inSet metaAdv b = false)
    (hfit : pre.length + suf.length + 4 ≤ 65536) :
    vibrexCompile (94 :: (pre ++ 46 :: 42 :: (suf ++ [36])))
      = some (.mk { bothAnchors := some (pre, suf) } none []) := by
  have hstep : vibrexCompile (94 :: (pre ++ 46 :: 42 :: (suf ++ [36])))
      = compileTop (fun q => vibrexCompileF 7 q)
          (94 :: (pre ++ 46 :: 42 :: (suf ++ [36]))) := rfl
  rw [hstep]
  unfold compileTop
  have hlen : (94 :: (pre ++ 46 :: 42 :: (suf ++ [36]))).length
      = pre.length + suf.length + 4 := by
    simp only [List.length_append, List.length_cons, List.length_nil]
    omega
  rw [if_neg (by rw [hlen]; omega)]
  rw [compileBothAnchorsOpt_shape pre suf hpre hsuf hmpre hmsuf]

theorem matchBothAnchors_iff (pre suf text : List Nat) (hsuf : suf ≠ []) :
    matchBothAnchors pre suf text = true ↔
      (pre <+: text ∧ suf <:+ text ∧ pre.length + suf.length ≤ text.length) := by
  unfold matchBothAnchors
  cases hc : cStrncmpEq text pre pre.length with
  | false =>
    rw [if_pos (by decide : (!false) = true)]
    constructor
    · intro h
      exact absurd h (by decide)
    · rintro ⟨h1, -, -⟩
      rw [(cStrncmpEq_eq_isPrefixOf pre text).mpr h1] at hc
      exact Bool.noConfusion hc
  | true =>
    rw [if_neg (by decide : ¬((!true) = true))]
    rw [if_neg (by
      simp only [beq_iff_eq, List.length_eq_zero]
      exact hsuf)]
    have hpfx : pre <+: text := (cStrncmpEq_eq_isPrefixOf pre text).mp hc
    by_cases hlt : text.length < pre.length + suf.length
    · rw [if_pos hlt]
      constructor
      · intro h
        exact absurd h (by decide)
      · rintro ⟨-, -, h3⟩
        omega
    · rw [if_neg hlt]
      rw [cStrncmpEq_eq_isPrefixOf]
      constructor
      · intro hsufpre
        refine ⟨hpfx, ?_, by omega⟩
        have hdl : (text.drop (text.length - suf.length)).length = suf.length := by
          rw [List.length_drop]
          omega
        have heq : suf = text.drop (text.length - suf.length) :=
          List.IsPrefix.eq_of_length hsufpre (by rw [hdl])
        rw [heq]
        exact List.drop_suffix _ _
      · rintro ⟨-, hsuffix, -⟩
        obtain ⟨s, hs⟩ := hsuffix
        have hdeq : text.drop (text.length - suf.length) = suf := by
          rw [← hs, List.length_append]
          have harith : s.length + suf.length - suf.length = s.length := by omega
          rw [harith]
          exact List.drop_left s suf
        rw [hdeq]

theorem tagSync_succ {li₁ li₂ : Nat} {l₁ l₂ : Nat → Nat}
    (h1 : TagLe li₁ l₁) (h2 : TagLe li₂ l₂) :
    TagSync (li₁ + 1) (li₂ + 1) l₁ l₂ := by
  refine ⟨fun i => Nat.le_succ_of_le (h1 i), fun i => Nat.le_succ_of_le (h2 i), fun i => ?_⟩
  have e1 : (l₁ i == li₁ + 1) = false := by
    simp only [beq_eq_false_iff_ne, ne_eq]
    have := h1 i
    omega
  have e2 : (l₂ i == li₂ + 1) = false := by
    simp only [beq_eq_false_iff_ne, ne_eq]
    have := h2 i
    omega
  rw [e1, e2]

theorem addstateT_sync (nodes : List Node) (pos : Int) (li₁ li₂ : Nat) :
    ∀ (gas : Nat) (s : Option Nat) (p₁ p₂ : (Nat → Nat) × List Nat),
      p₁.2 = p₂.2 → TagSync li₁ li₂ p₁.1 p₂.1 →
      (addstateT nodes li₁ pos gas s p₁).2 = (addstateT nodes li₂ pos gas s p₂).2 ∧
      TagSync li₁ li₂ (addstateT nodes li₁ pos gas s p₁).1
        (addstateT nodes li₂ pos gas s p₂).1 := by
  intro gas
  induction gas with
  | zero =>
    intro s p₁ p₂ hf hs
    rw [addstateT.eq_1, addstateT.eq_1]
    exact ⟨hf, hs⟩
  | succ gas ih =>
    intro s p₁ p₂ hf hs
    obtain ⟨l₁, f₁⟩ := p₁
    obtain ⟨l₂, f₂⟩ := p₂
    simp only at hf
    subst hf
    cases s with
    | none => exact ⟨rfl, hs⟩
    | some i =>
      rw [addstateT.eq_3, addstateT.eq_3]
      cases hg : nodes.get? i with
      | none => exact ⟨rfl, hs⟩
      | some nd =>
        simp only
        have hbeq := hs.2.2 i
        simp only at hbeq
        cases h1 : (l₁ i == li₁) with
        | true =>
          rw [if_pos rfl]
          rw [h1] at hbeq
          rw [if_pos hbeq.symm]
          exact ⟨rfl, hs⟩
        | false =>
          rw [if_neg Bool.false_ne_true]
          rw [h1] at hbeq
          rw [if_neg (show ¬((l₂ i == li₂) = true) by rw [← hbeq]; exact Bool.false_ne_true)]
          have hs' : TagSync li₁ li₂
              (fun j => if (j == i) = true then li₁ else l₁ j)
              (fun j => if (j == i) = true then li₂ else l₂ j) := by
            refine ⟨fun j => ?_, fun j => ?_, fun j => ?_⟩
            · by_cases hj : (j == i) = true
              · simp [hj]
              · simp only [hj, if_false]
                exact hs.1 j
            · by_cases hj : (j == i) = true
              · simp [hj]
              · simp only [hj, if_false]
                exact hs.2.1 j
            · by_cases hj : (j == i) = true
              · simp [hj]
              · simp only [hj, if_false]
                exact hs.2.2 j
          cases nd.ty with
          | split =>
            have H1 := ih nd.out
              ((fun j => if (j == i) = true then li₁ else l₁ j), f₁)
              ((fun j => if (j == i) = true then li₂ else l₂ j), f₁) rfl hs'
            rcases ha1 : addstateT nodes li₁ pos gas nd.out
              ((fun j => if (j == i) = true then li₁ else l₁ j), f₁) with ⟨m₁, g₁⟩
            rcases ha2 : addstateT nodes li₂ pos gas nd.out
              ((fun j => if (j == i) = true then li₂ else l₂ j), f₁) with ⟨m₂, g₂⟩
            rw [ha1, ha2] at H1
            obtain ⟨hg12, hsync12⟩ := H1
            simp only at hg12 hsync12
            subst hg12
            have H2 := ih nd.out1 (m₁, g₁) (m₂, g₁) rfl hsync12
            simp only
            exact H2
          | startAnchor =>
            by_cases hpos : (pos == 0) = true
            · rw [if_pos hpos, if_pos hpos]
              exact ih nd.out
                ((fun j => if (j == i) = true then li₁ else l₁ j), f₁)
                ((fun j => if (j == i) = true then li₂ else l₂ j), f₁) rfl hs'
            · rw [if_neg hpos, if_neg hpos]
              exact ⟨rfl, hs'⟩
          | ch c => exact ⟨rfl, hs'⟩
          | anyc => exact ⟨rfl, hs'⟩
          | cls bm => exact ⟨rfl, hs'⟩
          | matchS => exact ⟨rfl, hs'⟩
          | endAnchor => exact ⟨rfl, hs'⟩

theorem stepT_sync (nodes : List Node) (c : Nat) (li₁ li₂ : Nat) (l₁ l₂ : Nat → Nat)
    (clist : List Nat) (h1 : TagLe li₁ l₁) (h2 : TagLe li₂ l₂) :
    (stepT nodes li₁ l₁ clist c).2.2 = (stepT nodes li₂ l₂ clist c).2.2 ∧
    TagSync (li₁ + 1) (li₂ + 1)
      (stepT nodes li₁ l₁ clist c).2.1 (stepT nodes li₂ l₂ clist c).2.1 := by
  have hfold : ∀ (cl : List Nat) (p₁ p₂ : (Nat → Nat) × List Nat),
      p₁.2 = p₂.2 → TagSync (li₁ + 1) (li₂ + 1) p₁.1 p₂.1 →
      (cl.foldl (fun acc i =>
        match nodes.get? i with
        | none => acc
        | some nd =>
          match nd.ty with
          | .ch c2 => if c2 == c then addstateT nodes (li₁ + 1) (-1) (gasFor nodes) nd.out acc else acc
          | .anyc => addstateT nodes (li₁ + 1) (-1) (gasFor nodes) nd.out acc
          | .cls bm => if bm c then addstateT nodes (li₁ + 1) (-1) (gasFor nodes) nd.out acc else acc
          | _ => acc) p₁).2 =
      (cl.foldl (fun acc i =>
        match nodes.get? i with
        | none => acc
        | some nd =>
          match nd.ty with
          | .ch c2 => if c2 == c then addstateT nodes (li₂ + 1) (-1) (gasFor nodes) nd.out acc else acc
          | .anyc => addstateT nodes (li₂ + 1) (-1) (gasFor nodes) nd.out acc
          | .cls bm => if bm c then addstateT nodes (li₂ + 1) (-1) (gasFor nodes) nd.out acc else acc
          | _ => acc) p₂).2 ∧
      TagSync (li₁ + 1) (li₂ + 1)
        (cl.foldl (fun acc i =>
          match nodes.get? i with
          | none => acc
          | some nd =>
            match nd.ty with
            | .ch c2 => if c2 == c then addstateT nodes (li₁ + 1) (-1) (gasFor nodes) nd.out acc else acc
            | .anyc => addstateT nodes (li₁ + 1) (-1) (gasFor nodes) nd.out acc
            | .cls bm => if bm c then addstateT nodes (li₁ + 1) (-1) (gasFor nodes) nd.out acc else acc
            | _ => acc) p₁).1
        (cl.foldl (fun acc i =>
          match nodes.get? i with
          | none => acc
          | some nd =>
            match nd.ty with
            | .ch c2 => if c2 == c then addstateT nodes (li₂ + 1) (-1) (gasFor nodes) nd.out acc else acc
            | .anyc => addstateT nodes (li₂ + 1) (-1) (gasFor nodes) nd.out acc
            | .cls bm => if bm c then addstateT nodes (li₂ + 1) (-1) (gasFor nodes) nd.out acc else acc
            | _ => acc) p₂).1 := by
    intro cl
    induction cl with
    | nil =>
      intro p₁ p₂ hf hs
      exact ⟨hf, hs⟩
    | cons i r ih =>
      intro p₁ p₂ hf hs
      rw [List.foldl_cons, List.foldl_cons]
      cases hg : nodes.get? i with
      | none =>
        simp only [hg]
        exact ih p₁ p₂ hf hs
      | some nd =>
        simp only [hg]
        cases nd.ty with
        | ch c2 =>
          by_cases hc2 : (c2 == c) = true
          · simp only [hc2, if_true]
            have H := addstateT_sync nodes (-1) (li₁ + 1) (li₂ + 1) (gasFor nodes) nd.out p₁ p₂ hf hs
            exact ih _ _ H.1 H.2
          · simp only [hc2, if_false]
            exact ih p₁ p₂ hf hs
        | anyc =>
          have H := addstateT_sync nodes (-1) (li₁ + 1) (li₂ + 1) (gasFor nodes) nd.out p₁ p₂ hf hs
          exact ih _ _ H.1 H.2
        | cls bm =>
          by_cases hbm : bm c = true
          · simp only [hbm, if_true]
            have H := addstateT_sync nodes (-1) (li₁ + 1) (li₂ + 1) (gasFor nodes) nd.out p₁ p₂ hf hs
            exact ih _ _ H.1 H.2
          · simp only [hbm, if_false]
            exact ih p₁ p₂ hf hs
        | split => exact ih p₁ p₂ hf hs
        | matchS => exact ih p₁ p₂ hf hs
        | startAnchor => exact ih p₁ p₂ hf hs
        | endAnchor => exact ih p₁ p₂ hf hs
  have H := hfold clist (l₁, []) (l₂, []) rfl (tagSync_succ h1 h2)
  exact H

theorem isEndMatchT_sync (nodes : List Node) (atEnd : Bool) :
    ∀ (clist : List Nat) (li₁ li₂ : Nat) (l₁ l₂ : Nat → Nat),
      TagLe li₁ l₁ → TagLe li₂ l₂ →
      RunSync li₁ li₂ (isEndMatchT nodes atEnd clist li₁ l₁)
        (isEndMatchT nodes atEnd clist li₂ l₂)
  | [], li₁, li₂, l₁, l₂, h1, h2 => by
    rw [isEndMatchT, isEndMatchT]
    exact ⟨rfl, Nat.le_refl _, Nat.le_refl _, h1, h2⟩
  | i :: r, li₁, li₂, l₁, l₂, h1, h2 => by
    rw [isEndMatchT, isEndMatchT]
    cases hg : nodes.get? i with
    | none =>
      simp only
      exact isEndMatchT_sync nodes atEnd r li₁ li₂ l₁ l₂ h1 h2
    | some nd =>
      simp only
      by_cases hM : nd.ty.isMatch = true
      · rw [if_pos hM, if_pos hM]
        exact ⟨rfl, Nat.le_refl _, Nat.le_refl _, h1, h2⟩
      · rw [if_neg hM, if_neg hM]
        by_cases hE : (nd.ty.isEndAnchor && atEnd) = true
        · rw [if_pos hE, if_pos hE]
          have HS := addstateT_sync nodes (-1) (li₁ + 1) (li₂ + 1) (gasFor nodes) nd.out
            (l₁, []) (l₂, []) rfl (tagSync_succ h1 h2)
          rcases ha1 : addstateT nodes (li₁ + 1) (-1) (gasFor nodes) nd.out (l₁, [])
            with ⟨m₁, t₁⟩
          rcases ha2 : addstateT nodes (li₂ + 1) (-1) (gasFor nodes) nd.out (l₂, [])
            with ⟨m₂, t₂⟩
          rw [ha1, ha2] at HS
          obtain ⟨ht, hsync⟩ := HS
          simp only at ht
          subst ht
          by_cases hml : ismatchL nodes t₁ = true
          · rw [if_pos hml, if_pos hml]
            exact ⟨rfl, Nat.le_succ _, Nat.le_succ _, hsync.1, hsync.2.1⟩
          · rw [if_neg hml, if_neg hml]
            have H := isEndMatchT_sync nodes atEnd r (li₁ + 1) (li₂ + 1) m₁ m₂
              hsync.1 hsync.2.1
            exact ⟨H.1, Nat.le_trans (Nat.le_succ _) H.2.1,
              Nat.le_trans (Nat.le_succ _) H.2.2.1, H.2.2.2⟩
        · rw [if_neg hE, if_neg hE]
          exact isEndMatchT_sync nodes atEnd r li₁ li₂ l₁ l₂ h1 h2

theorem innerRunT_sync (nodes : List Node) (anchoredEnd : Bool) :
    ∀ (bytes clist : List Nat) (li₁ li₂ : Nat) (l₁ l₂ : Nat → Nat),
      TagLe li₁ l₁ → TagLe li₂ l₂ →
      RunSync li₁ li₂ (innerRunT nodes anchoredEnd bytes clist li₁ l₁)
        (innerRunT nodes anchoredEnd bytes clist li₂ l₂)
  | [], clist, li₁, li₂, l₁, l₂, h1, h2 => by
    rw [innerRunT, innerRunT]
    exact isEndMatchT_sync nodes true clist li₁ li₂ l₁ l₂ h1 h2
  | c :: rest, clist, li₁, li₂, l₁, l₂, h1, h2 => by
    rw [innerRunT, innerRunT]
    have HS := stepT_sync nodes c li₁ li₂ l₁ l₂ clist h1 h2
    rcases hs1 : stepT nodes li₁ l₁ clist c with ⟨li₁', m₁, nl₁⟩
    rcases hs2 : stepT nodes li₂ l₂ clist c with ⟨li₂', m₂, nl₂⟩
    have hli1 : li₁' = li₁ + 1 := by rw [show li₁' = (stepT nodes li₁ l₁ clist c).1 from by rw [hs1]]; rfl
    have hli2 : li₂' = li₂ + 1 := by rw [show li₂' = (stepT nodes li₂ l₂ clist c).1 from by rw [hs2]]; rfl
    rw [hs1, hs2] at HS
    obtain ⟨hnl, hsync⟩ := HS
    subst hnl
    subst hli1
    subst hli2
    simp only
    by_cases he : nl₁.isEmpty = true
    · rw [if_pos he, if_pos he]
      exact ⟨rfl, Nat.le_succ _, Nat.le_succ _, hsync.1, hsync.2.1⟩
    · rw [if_neg he, if_neg he]
      by_cases hm : (!anchoredEnd && ismatchL nodes nl₁) = true
      · rw [if_pos hm, if_pos hm]
        exact ⟨rfl, Nat.le_succ _, Nat.le_succ _, hsync.1, hsync.2.1⟩
      · rw [if_neg hm, if_neg hm]
        have H := innerRunT_sync nodes anchoredEnd rest nl₁ (li₁ + 1) (li₂ + 1) m₁ m₂
          hsync.1 hsync.2.1
        exact ⟨H.1, Nat.le_trans (Nat.le_succ _) H.2.1,
          Nat.le_trans (Nat.le_succ _) H.2.2.1, H.2.2.2⟩

theorem genLoopT_sync (nodes : List Node) (anchoredEnd : Bool) (start : Option Nat)
    (text : List Nat) :
    ∀ (cnt i : Nat) (li₁ li₂ : Nat) (l₁ l₂ : Nat → Nat),
      TagLe li₁ l₁ → TagLe li₂ l₂ →
      RunSync li₁ li₂ (genLoopT nodes anchoredEnd start text cnt i li₁ l₁)
        (genLoopT nodes anchoredEnd start text cnt i li₂ l₂)
  | 0, i, li₁, li₂, l₁, l₂, h1, h2 => by
    rw [genLoopT, genLoopT]
    exact ⟨rfl, Nat.le_refl _, Nat.le_refl _, h1, h2⟩
  | cnt + 1, i, li₁, li₂, l₁, l₂, h1, h2 => by
    rw [genLoopT, genLoopT]
    have HS := addstateT_sync nodes (Int.ofNat i) (li₁ + 1) (li₂ + 1) (gasFor nodes) start
      (l₁, []) (l₂, []) rfl (tagSync_succ h1 h2)
    rcases ha1 : addstateT nodes (li₁ + 1) (Int.ofNat i) (gasFor nodes) start (l₁, [])
      with ⟨m₁, cl₁⟩
    rcases ha2 : addstateT nodes (li₂ + 1) (Int.ofNat i) (gasFor nodes) start (l₂, [])
      with ⟨m₂, cl₂⟩
    rw [ha1, ha2] at HS
    obtain ⟨hcl, hsync⟩ := HS
    simp only at hcl
    subst hcl
    simp only
    have HE := isEndMatchT_sync nodes (i == text.length) cl₁ (li₁ + 1) (li₂ + 1) m₁ m₂
      hsync.1 hsync.2.1
    rcases he1 : isEndMatchT nodes (i == text.length) cl₁ (li₁ + 1) m₁ with ⟨b₁, lie₁, me₁⟩
    rcases he2 : isEndMatchT nodes (i == text.length) cl₁ (li₂ + 1) m₂ with ⟨b₂, lie₂, me₂⟩
    rw [he1, he2] at HE
    obtain ⟨hb, hmo1, hmo2, hle1, hle2⟩ := HE
    simp only at hb hmo1 hmo2 hle1 hle2
    subst hb
    simp only
    by_cases hcond : (b₁ && (!anchoredEnd || i == text.length)) = true
    · rw [if_pos hcond, if_pos hcond]
      exact ⟨rfl, show li₁ ≤ lie₁ by omega, show li₂ ≤ lie₂ by omega, hle1, hle2⟩
    · rw [if_neg hcond, if_neg hcond]
      have HI := innerRunT_sync nodes anchoredEnd (text.drop i) cl₁ lie₁ lie₂ me₁ me₂
        hle1 hle2
      rcases hi1 : innerRunT nodes anchoredEnd (text.drop i) cl₁ lie₁ me₁ with ⟨c₁, lii₁, mi₁⟩
      rcases hi2 : innerRunT nodes anchoredEnd (text.drop i) cl₁ lie₂ me₂ with ⟨c₂, lii₂, mi₂⟩
      rw [hi1, hi2] at HI
      obtain ⟨hc, hio1, hio2, hil1, hil2⟩ := HI
      simp only at hc hio1 hio2 hil1 hil2
      subst hc
      simp only
      by_cases hb2 : c₁ = true
      · rw [if_pos hb2, if_pos hb2]
        exact ⟨rfl, show li₁ ≤ lii₁ by omega, show li₂ ≤ lii₂ by omega, hil1, hil2⟩
      · rw [if_neg hb2, if_neg hb2]
        have H := genLoopT_sync nodes anchoredEnd start text cnt (i + 1) lii₁ lii₂ mi₁ mi₂
          hil1 hil2
        exact ⟨H.1, by have := H.2.1; omega, by have := H.2.2.1; omega, H.2.2.2⟩

theorem fcLoopT_sync (nodes : List Node) (anchoredEnd : Bool) (start : Option Nat)
    (fc : Nat) (text : List Nat) :
    ∀ (f cur : Nat) (li₁ li₂ : Nat) (l₁ l₂ : Nat → Nat),
      TagLe li₁ l₁ → TagLe li₂ l₂ →
      RunSync li₁ li₂ (fcLoopT nodes anchoredEnd start fc text f cur li₁ l₁)
        (fcLoopT nodes anchoredEnd start fc text f cur li₂ l₂)
  | 0, cur, li₁, li₂, l₁, l₂, h1, h2 => by
    rw [fcLoopT, fcLoopT]
    exact ⟨rfl, Nat.le_refl _, Nat.le_refl _, h1, h2⟩
  | f + 1, cur, li₁, li₂, l₁, l₂, h1, h2 => by
    rw [fcLoopT, fcLoopT]
    cases hs : strchrIdx text cur fc with
    | none =>
      simp only
      exact ⟨rfl, Nat.le_refl _, Nat.le_refl _, h1, h2⟩
    | some k =>
      simp only
      have HS := addstateT_sync nodes (Int.ofNat k) (li₁ + 1) (li₂ + 1) (gasFor nodes) start
        (l₁, []) (l₂, []) rfl (tagSync_succ h1 h2)
      rcases ha1 : addstateT nodes (li₁ + 1) (Int.ofNat k) (gasFor nodes) start (l₁, [])
        with ⟨m₁, cl₁⟩
      rcases ha2 : addstateT nodes (li₂ + 1) (Int.ofNat k) (gasFor nodes) start (l₂, [])
        with ⟨m₂, cl₂⟩
      rw [ha1, ha2] at HS
      obtain ⟨hcl, hsync⟩ := HS
      simp only at hcl
      subst hcl
      simp only
      by_cases hm : (!anchoredEnd && ismatchL nodes cl₁) = true
      · rw [if_pos hm, if_pos hm]
        exact ⟨rfl, Nat.le_succ _, Nat.le_succ _, hsync.1, hsync.2.1⟩
      · rw [if_neg hm, if_neg hm]
        have HI := innerRunT_sync nodes anchoredEnd (text.drop k) cl₁ (li₁ + 1) (li₂ + 1)
          m₁ m₂ hsync.1 hsync.2.1
        rcases hi1 : innerRunT nodes anchoredEnd (text.drop k) cl₁ (li₁ + 1) m₁
          with ⟨c₁, lii₁, mi₁⟩
        rcases hi2 : innerRunT nodes anchoredEnd (text.drop k) cl₁ (li₂ + 1) m₂
          with ⟨c₂, lii₂, mi₂⟩
        rw [hi1, hi2] at HI
        obtain ⟨hc, hio1, hio2, hil1, hil2⟩ := HI
        simp only at hc hio1 hio2 hil1 hil2
        subst hc
        simp only
        by_cases hb2 : c₁ = true
        · rw [if_pos hb2, if_pos hb2]
          exact ⟨rfl, show li₁ ≤ lii₁ by omega, show li₂ ≤ lii₂ by omega, hil1, hil2⟩
        · rw [if_neg hb2, if_neg hb2]
          have H := fcLoopT_sync nodes anchoredEnd start fc text f (k + 1) lii₁ lii₂ mi₁ mi₂
            hil1 hil2
          exact ⟨H.1, by have := H.2.1; omega, by have := H.2.2.1; omega, H.2.2.2⟩

theorem bmPreRunT_sync (nodes : List Node) (anchoredEnd : Bool) :
    ∀ (bytes clist : List Nat) (li₁ li₂ : Nat) (l₁ l₂ : Nat → Nat),
      TagLe li₁ l₁ → TagLe li₂ l₂ →
      (bmPreRunT nodes anchoredEnd bytes clist li₁ l₁).1
        = (bmPreRunT nodes anchoredEnd bytes clist li₂ l₂).1 ∧
      li₁ ≤ (bmPreRunT nodes anchoredEnd bytes clist li₁ l₁).2.1 ∧
      li₂ ≤ (bmPreRunT nodes anchoredEnd bytes clist li₂ l₂).2.1 ∧
      TagLe (bmPreRunT nodes anchoredEnd bytes clist li₁ l₁).2.1
        (bmPreRunT nodes anchoredEnd bytes clist li₁ l₁).2.2 ∧
      TagLe (bmPreRunT nodes anchoredEnd bytes clist li₂ l₂).2.1
        (bmPreRunT nodes anchoredEnd bytes clist li₂ l₂).2.2
  | [], clist, li₁, li₂, l₁, l₂, h1, h2 => by
    rw [bmPreRunT, bmPreRunT]
    exact ⟨rfl, Nat.le_refl _, Nat.le_refl _, h1, h2⟩
  | c :: rest, clist, li₁, li₂, l₁, l₂, h1, h2 => by
    rw [bmPreRunT, bmPreRunT]
    have HS := stepT_sync nodes c li₁ li₂ l₁ l₂ clist h1 h2
    rcases hs1 : stepT nodes li₁ l₁ clist c with ⟨li₁', m₁, nl₁⟩
    rcases hs2 : stepT nodes li₂ l₂ clist c with ⟨li₂', m₂, nl₂⟩
    have hli1 : li₁' = li₁ + 1 := by
      rw [show li₁' = (stepT nodes li₁ l₁ clist c).1 from by rw [hs1]]
      rfl
    have hli2 : li₂' = li₂ + 1 := by
      rw [show li₂' = (stepT nodes li₂ l₂ clist c).1 from by rw [hs2]]
      rfl
    rw [hs1, hs2] at HS
    obtain ⟨hnl, hsync⟩ := HS
    subst hnl
    subst hli1
    subst hli2
    simp only
    by_cases he : nl₁.isEmpty = true
    · rw [if_pos he, if_pos he]
      exact ⟨rfl, Nat.le_succ _, Nat.le_succ _, hsync.1, hsync.2.1⟩
    · rw [if_neg he, if_neg he]
      by_cases hm : (!anchoredEnd && ismatchL nodes nl₁) = true
      · rw [if_pos hm, if_pos hm]
        exact ⟨rfl, Nat.le_succ _, Nat.le_succ _, hsync.1, hsync.2.1⟩
      · rw [if_neg hm, if_neg hm]
        have H := bmPreRunT_sync nodes anchoredEnd rest nl₁ (li₁ + 1) (li₂ + 1) m₁ m₂
          hsync.1 hsync.2.1
        exact ⟨H.1, Nat.le_trans (Nat.le_succ _) H.2.1,
          Nat.le_trans (Nat.le_succ _) H.2.2.1, H.2.2.2⟩

theorem bmLoopT_sync (nodes : List Node) (anchoredEnd : Bool) (start : Option Nat)
    (pat : List Nat) (skipT : Nat → Nat) (text : List Nat) :
    ∀ (f cur : Nat) (li₁ li₂ : Nat) (l₁ l₂ : Nat → Nat),
      TagLe li₁ l₁ → TagLe li₂ l₂ →
      RunSync li₁ li₂ (bmLoopT nodes anchoredEnd start pat skipT text f cur li₁ l₁)
        (bmLoopT nodes anchoredEnd start pat skipT text f cur li₂ l₂)
  | 0, cur, li₁, li₂, l₁, l₂, h1, h2 => by
    rw [bmLoopT, bmLoopT]
    exact ⟨rfl, Nat.le_refl _, Nat.le_refl _, h1, h2⟩
  | f + 1, cur, li₁, li₂, l₁, l₂, h1, h2 => by
    rw [bmLoopT, bmLoopT]
    cases hs : bmSearchF pat skipT (text.drop cur) (text.length + 1) 0 with
    | none =>
      simp only
      exact ⟨rfl, Nat.le_refl _, Nat.le_refl _, h1, h2⟩
    | some rel =>
      simp only
      have HS := addstateT_sync nodes (Int.ofNat (cur + rel)) (li₁ + 1) (li₂ + 1)
        (gasFor nodes) start (l₁, []) (l₂, []) rfl (tagSync_succ h1 h2)
      rcases ha1 : addstateT nodes (li₁ + 1) (Int.ofNat (cur + rel)) (gasFor nodes) start
        (l₁, []) with ⟨m₁, cl₁⟩
      rcases ha2 : addstateT nodes (li₂ + 1) (Int.ofNat (cur + rel)) (gasFor nodes) start
        (l₂, []) with ⟨m₂, cl₂⟩
      rw [ha1, ha2] at HS
      obtain ⟨hcl, hsync⟩ := HS
      simp only at hcl
      subst hcl
      simp only
      by_cases hm : (!anchoredEnd && ismatchL nodes cl₁) = true
      · rw [if_pos hm, if_pos hm]
        exact ⟨rfl, Nat.le_succ _, Nat.le_succ _, hsync.1, hsync.2.1⟩
      · rw [if_neg hm, if_neg hm]
        have HP := bmPreRunT_sync nodes anchoredEnd ((text.drop (cur + rel)).take pat.length)
          cl₁ (li₁ + 1) (li₂ + 1) m₁ m₂ hsync.1 hsync.2.1
        rcases hp1 : bmPreRunT nodes anchoredEnd ((text.drop (cur + rel)).take pat.length)
          cl₁ (li₁ + 1) m₁ with ⟨tr₁, lip₁, mp₁⟩
        rcases hp2 : bmPreRunT nodes anchoredEnd ((text.drop (cur + rel)).take pat.length)
          cl₁ (li₂ + 1) m₂ with ⟨tr₂, lip₂, mp₂⟩
        rw [hp1, hp2] at HP
        obtain ⟨htr, hpo1, hpo2, hpl1, hpl2⟩ := HP
        simp only at htr hpo1 hpo2 hpl1 hpl2
        subst htr
        simp only
        cases tr₁ with
        | hit =>
          exact ⟨rfl, show li₁ ≤ lip₁ by omega, show li₂ ≤ lip₂ by omega, hpl1, hpl2⟩
        | dead =>
          simp only
          by_cases hrem : cur + rel + pat.length < text.length
          · rw [if_pos hrem, if_pos hrem]
            have H := bmLoopT_sync nodes anchoredEnd start pat skipT text f (cur + rel + 1)
              (lip₁ + 1) (lip₂ + 1) mp₁ mp₂
              (fun i => Nat.le_succ_of_le (hpl1 i)) (fun i => Nat.le_succ_of_le (hpl2 i))
            exact ⟨H.1, by have := H.2.1; omega, by have := H.2.2.1; omega, H.2.2.2⟩
          · rw [if_neg hrem, if_neg hrem]
            have H := bmLoopT_sync nodes anchoredEnd start pat skipT text f (cur + rel + 1)
              lip₁ lip₂ mp₁ mp₂ hpl1 hpl2
            exact ⟨H.1, by have := H.2.1; omega, by have := H.2.2.1; omega, H.2.2.2⟩
        | alive cl2 =>
          simp only
          have HI := innerRunT_sync nodes anchoredEnd (text.drop (cur + rel + pat.length))
            cl2 lip₁ lip₂ mp₁ mp₂ hpl1 hpl2
          rcases hi1 : innerRunT nodes anchoredEnd (text.drop (cur + rel + pat.length))
            cl2 lip₁ mp₁ with ⟨c₁, lii₁, mi₁⟩
          rcases hi2 : innerRunT nodes anchoredEnd (text.drop (cur + rel + pat.length))
            cl2 lip₂ mp₂ with ⟨c₂, lii₂, mi₂⟩
          rw [hi1, hi2] at HI
          obtain ⟨hc, hio1, hio2, hil1, hil2⟩ := HI
          simp only at hc hio1 hio2 hil1 hil2
          subst hc
          simp only
          by_cases hb2 : c₁ = true
          · rw [if_pos hb2, if_pos hb2]
            exact ⟨rfl, show li₁ ≤ lii₁ by omega, show li₂ ≤ lii₂ by omega, hil1, hil2⟩
          · rw [if_neg hb2, if_neg hb2]
            have H := bmLoopT_sync nodes anchoredEnd start pat skipT text f (cur + rel + 1)
              lii₁ lii₂ mi₁ mi₂ hil1 hil2
            exact ⟨H.1, by have := H.2.1; omega, by have := H.2.2.1; omega, H.2.2.2⟩

theorem nfaPathRunT_sync (b : CompiledBase) (text : List Nat)
    (li₁ li₂ : Nat) (l₁ l₂ : Nat → Nat) (h1 : TagLe li₁ l₁) (h2 : TagLe li₂ l₂) :
    RunSync li₁ li₂ (nfaPathRunT b text li₁ l₁) (nfaPathRunT b text li₂ l₂) := by
  rw [nfaPathRunT, nfaPathRunT]
  by_cases hbc : b.badCharEnabled = true
  · rw [if_pos hbc, if_pos hbc]
    exact bmLoopT_sync b.nodes b.anchoredEnd b.start b.litPre b.badCharSkip text
      (text.length + 2) 0 li₁ li₂ l₁ l₂ h1 h2
  · rw [if_neg hbc, if_neg hbc]
    by_cases hfc : (!(match b.start with
        | some i =>
          match b.nodes.get? i with
          | some nd => nd.ty.isStartAnchor
          | none => false
        | none => false) && b.hasFirstChar) = true
    · rw [if_pos hfc, if_pos hfc]
      exact fcLoopT_sync b.nodes b.anchoredEnd b.start b.firstChar text
        (text.length + 2) 0 li₁ li₂ l₁ l₂ h1 h2
    · rw [if_neg hfc, if_neg hfc]
      exact genLoopT_sync b.nodes b.anchoredEnd b.start text _ 0 li₁ li₂ l₁ l₂ h1 h2

theorem storeLe_empty (li : Nat) : StoreLe li emptyStore := by
  refine .mk (fun _ => Nat.zero_le li) ?_
  intro k hk
  exact absurd hk (by simp [emptyStore])

theorem shapeEq_empty : ShapeEq emptyStore emptyStore := by
  refine .mk rfl ?_
  intro k hk
  exact absurd hk (by simp [emptyStore])

theorem StoreLe.mono {li li' : Nat} {s : Store} (h : StoreLe li s) (hle : li ≤ li') :
    StoreLe li' s := by
  induction h with
  | mk ht _ ih =>
    exact .mk (fun i => Nat.le_trans (ht i) hle) (fun k hk => ih k hk)

theorem StoreLe.last_le {li : Nat} {s : Store} (h : StoreLe li s) : TagLe li s.last := by
  cases h with
  | mk ht _ => exact ht

theorem StoreLe.child_le {li : Nat} {s : Store} (h : StoreLe li s) (k : Nat) :
    StoreLe li (s.child k) := by
  obtain ⟨l, c⟩ := s
  cases h with
  | mk ht hc =>
    simp only [Store.child, Store.children]
    by_cases hk : k < c.length
    · exact hc k hk
    · rw [List.getD_eq_default _ _ (Nat.le_of_not_lt hk)]
      exact storeLe_empty li

theorem ShapeEq.child {s₁ s₂ : Store} (h : ShapeEq s₁ s₂) (k : Nat) :
    ShapeEq (s₁.child k) (s₂.child k) := by
  obtain ⟨l₁, c₁⟩ := s₁
  obtain ⟨l₂, c₂⟩ := s₂
  cases h with
  | mk hl hc =>
    simp only [Store.child, Store.children]
    by_cases hk : k < c₁.length
    · exact hc k hk
    · rw [List.getD_eq_default _ _ (Nat.le_of_not_lt hk),
        List.getD_eq_default _ _ (by omega)]
      exact shapeEq_empty

theorem getD_set_store (l : List Store) (k j : Nat) (a : Store) :
    (l.set k a).getD j emptyStore =
      if k = j ∧ k < l.length then a else l.getD j emptyStore := by
  rw [List.getD_eq_getElem?_getD, List.getD_eq_getElem?_getD, List.getElem?_set]
  by_cases hj : k = j
  · subst hj
    by_cases hk : k < l.length
    · rw [if_pos rfl, if_pos hk, if_pos ⟨rfl, hk⟩]
      rfl
    · rw [if_pos rfl, if_neg hk, if_neg (fun hh => hk hh.2)]
      rw [List.getElem?_eq_none (by omega)]
  · rw [if_neg hj, if_neg (fun hh => hj hh.1)]

theorem StoreLe.withChild_le {li : Nat} {s n : Store} (hs : StoreLe li s)
    (hn : StoreLe li n) (k : Nat) : StoreLe li (s.withChild k n) := by
  obtain ⟨l, c⟩ := s
  cases hs with
  | mk ht hc =>
    rw [Store.withChild]
    refine .mk ht ?_
    intro j hj
    simp only [Store.children, Store.last]
    rw [getD_set_store]
    by_cases hkj : k = j ∧ k < c.length
    · rw [if_pos hkj]
      exact hn
    · rw [if_neg hkj]
      refine hc j ?_
      simpa using hj

theorem ShapeEq.withChild {s₁ s₂ n₁ n₂ : Store} (h : ShapeEq s₁ s₂)
    (hn : ShapeEq n₁ n₂) (k : Nat) : ShapeEq (s₁.withChild k n₁) (s₂.withChild k n₂) := by
  obtain ⟨l₁, c₁⟩ := s₁
  obtain ⟨l₂, c₂⟩ := s₂
  cases h with
  | mk hl hc =>
    rw [Store.withChild, Store.withChild]
    simp only [Store.children, Store.last]
    refine .mk (by simpa using hl) ?_
    intro j hj
    rw [getD_set_store, getD_set_store]
    by_cases hkj : k = j ∧ k < c₁.length
    · rw [if_pos hkj, if_pos ⟨hkj.1, by omega⟩]
      exact hn
    · rw [if_neg hkj, if_neg (by
        rintro ⟨h1, h2⟩
        exact hkj ⟨h1, by omega⟩)]
      refine hc j ?_
      simpa using hj

/-- Self-shape: every store has its own shape. -/
theorem shapeEq_refl : ∀ (s : Store), ShapeEq s s :=
  @Store.rec (fun s => ShapeEq s s)
    (fun cl => ∀ k, k < cl.length → ShapeEq (cl.getD k emptyStore) (cl.getD k emptyStore))
    (fun _ c ihc => .mk rfl ihc)
    (fun k hk => absurd hk (by simp))
    (fun hd tl ihh iht k hk => by
      cases k with
      | zero => exact ihh
      | succ k =>
        refine iht k ?_
        simpa using hk)

theorem ShapeEq.symm {s₁ s₂ : Store} (h : ShapeEq s₁ s₂) : ShapeEq s₂ s₁ := by
  induction h with
  | mk hl _ ih =>
    exact .mk hl.symm (fun k hk => ih k (by omega))

theorem ShapeEq.trans {s₁ s₂ s₃ : Store} (h1 : ShapeEq s₁ s₂) (h2 : ShapeEq s₂ s₃) :
    ShapeEq s₁ s₃ := by
  induction h1 generalizing s₃ with
  | mk hl hc ih =>
    cases h2 with
    | mk hl2 hc2 =>
      exact .mk (hl.trans hl2) (fun k hk => ih k hk (hc2 k (by omega)))

theorem StoreLe.withLast_le {li : Nat} {s : Store} {l' : Nat → Nat}
    (h : StoreLe li s) (hl : TagLe li l') : StoreLe li (s.withLast l') := by
  obtain ⟨l, c⟩ := s
  cases h with
  | mk _ hc =>
    rw [Store.withLast]
    exact .mk hl (by simpa [Store.children] using hc)

theorem shapeEq_withLast (s : Store) (l' : Nat → Nat) : ShapeEq s (s.withLast l') := by
  obtain ⟨l, c⟩ := s
  rw [Store.withLast]
  cases shapeEq_refl (Store.mk l c) with
  | mk hl hc =>
    exact .mk rfl (by simpa [Store.children] using hc)

theorem shapeEq_withChild_self {s n : Store} (k : Nat) (hn : ShapeEq (s.child k) n) :
    ShapeEq s (s.withChild k n) := by
  obtain ⟨l, c⟩ := s
  rw [Store.withChild]
  simp only [Store.children, Store.last]
  refine .mk (by simp) ?_
  intro j hj
  rw [getD_set_store]
  by_cases hkj : k = j ∧ k < c.length
  · rw [if_pos hkj]
    obtain ⟨rfl, hk⟩ := hkj
    simpa [Store.child, Store.children] using hn
  · rw [if_neg hkj]
    exact shapeEq_refl _

theorem initStoreF_le : ∀ (fuel : Nat) (c : Compiled) (li : Nat),
    StoreLe li (initStoreF fuel c)
  | 0, c, li => storeLe_empty li
  | fuel + 1, c, li => by
    rw [initStoreF]
    refine .mk (fun _ => Nat.zero_le li) ?_
    intro k hk
    cases k with
    | zero =>
      cases hsp : c.advSufPat with
      | none => simpa [hsp] using storeLe_empty li
      | some sp => simpa [hsp] using initStoreF_le fuel sp li
    | succ k =>
      rw [show ∀ (a : Store) (r : List Store),
          (a :: r).getD (k + 1) emptyStore = r.getD k emptyStore from fun a r => rfl]
      rw [List.getD_eq_getElem?_getD, List.getElem?_map]
      cases he : c.advAlts[k]? with
      | none => exact storeLe_empty li
      | some e =>
        simp only [Option.map_some', Option.getD_some]
        cases he2 : e.2 with
        | none => simpa [he2] using storeLe_empty li
        | some sub => simpa [he2] using initStoreF_le fuel sub li

theorem mrel_pure {α : Type} (li₁ li₂ : Nat) (st₁ st₂ : Store) (a : α)
    (h1 : StoreLe li₁ st₁) (h2 : StoreLe li₂ st₂) :
    MRel li₁ li₂ st₁ st₂ (a, li₁, st₁) (a, li₂, st₂) :=
  ⟨rfl, Nat.le_refl _, Nat.le_refl _, h1, h2, shapeEq_refl _, shapeEq_refl _⟩

theorem matchSingleAltT_sync (cb : MatchCb) (hcb : CbSync cb) (k : Nat)
    (asb : AltSufBase) (sub : Option Compiled) (text : List Nat)
    (li₁ li₂ : Nat) (st₁ st₂ : Store)
    (h1 : StoreLe li₁ st₁) (h2 : StoreLe li₂ st₂) (hsh : ShapeEq st₁ st₂) :
    MRel li₁ li₂ st₁ st₂ (matchSingleAltT cb li₁ st₁ k asb sub text)
      (matchSingleAltT cb li₂ st₂ k asb sub text) := by
  rw [matchSingleAltT.eq_def, matchSingleAltT.eq_def]
  simp only
  by_cases hnc : (match asb.core with
      | none => true
      | some c => c.length == 0) = true
  · rw [if_pos hnc, if_pos hnc]
    cases asb.ty <;> exact mrel_pure _ _ _ _ _ h1 h2
  · rw [if_neg hnc, if_neg hnc]
    cases hcore : asb.core with
    | none => exact mrel_pure _ _ _ _ _ h1 h2
    | some core =>
      simp only
      cases hty : asb.ty with
      | lit => exact mrel_pure _ _ _ _ _ h1 h2
      | dsPre => exact mrel_pure _ _ _ _ _ h1 h2
      | dsSuf => exact mrel_pure _ _ _ _ _ h1 h2
      | dsWrap => exact mrel_pure _ _ _ _ _ h1 h2
      | rgx =>
        cases hsub : sub with
        | none => exact mrel_pure _ _ _ _ _ h1 h2
        | some sp =>
          simp only
          have HC := hcb sp text li₁ li₂ (st₁.child k) (st₂.child k)
            (h1.child_le k) (h2.child_le k) (hsh.child k)
          rcases hc1 : cb li₁ (st₁.child k) sp text with ⟨b₁, lic₁, cst₁⟩
          rcases hc2 : cb li₂ (st₂.child k) sp text with ⟨b₂, lic₂, cst₂⟩
          rw [hc1, hc2] at HC
          obtain ⟨hb, hm1, hm2, hl1, hl2, hs1, hs2⟩ := HC
          simp only at hb hm1 hm2 hl1 hl2 hs1 hs2
          subst hb
          simp only
          refine ⟨rfl, hm1, hm2, ?_, ?_, ?_, ?_⟩
          · exact StoreLe.withChild_le (h1.mono hm1) hl1 k
          · exact StoreLe.withChild_le (h2.mono hm2) hl2 k
          · exact shapeEq_withChild_self k hs1
          · exact shapeEq_withChild_self k hs2

theorem matchMixedLoopT_sync (cb : MatchCb) (hcb : CbSync cb) (text : List Nat) :
    ∀ (alts : List (AltSufBase × Option Compiled)) (k : Nat)
      (li₁ li₂ : Nat) (st₁ st₂ : Store),
      StoreLe li₁ st₁ → StoreLe li₂ st₂ → ShapeEq st₁ st₂ →
      MRel li₁ li₂ st₁ st₂ (matchMixedLoopT cb text alts k li₁ st₁)
        (matchMixedLoopT cb text alts k li₂ st₂)
  | [], k, li₁, li₂, st₁, st₂, h1, h2, hsh => by
    rw [matchMixedLoopT, matchMixedLoopT]
    exact mrel_pure _ _ _ _ _ h1 h2
  | (asb, sub) :: rest, k, li₁, li₂, st₁, st₂, h1, h2, hsh => by
    rw [matchMixedLoopT, matchMixedLoopT]
    have HS := matchSingleAltT_sync cb hcb k asb sub text li₁ li₂ st₁ st₂ h1 h2 hsh
    rcases hm1 : matchSingleAltT cb li₁ st₁ k asb sub text with ⟨b₁, lia₁, sta₁⟩
    rcases hm2 : matchSingleAltT cb li₂ st₂ k asb sub text with ⟨b₂, lia₂, sta₂⟩
    rw [hm1, hm2] at HS
    obtain ⟨hb, ha1, ha2, hl1, hl2, hs1, hs2⟩ := HS
    simp only at hb ha1 ha2 hl1 hl2 hs1 hs2
    subst hb
    simp only
    by_cases hbt : b₁ = true
    · rw [if_pos hbt, if_pos hbt]
      exact ⟨rfl, ha1, ha2, hl1, hl2, hs1, hs2⟩
    · rw [if_neg hbt, if_neg hbt]
      have hsh' : ShapeEq sta₁ sta₂ := (hs1.symm.trans hsh).trans hs2
      have H := matchMixedLoopT_sync cb hcb text rest (k + 1) lia₁ lia₂ sta₁ sta₂
        hl1 hl2 hsh'
      exact ⟨H.1, Nat.le_trans ha1 H.2.1, Nat.le_trans ha2 H.2.2.1, H.2.2.2.1,
        H.2.2.2.2.1, hs1.trans H.2.2.2.2.2.1, hs2.trans H.2.2.2.2.2.2⟩

theorem matchDotstarT_sync (cb : MatchCb) (hcb : CbSync cb) (flags : DsFlags)
    (alts : List (AltSufBase × Option Compiled)) (text : List Nat)
    (li₁ li₂ : Nat) (st₁ st₂ : Store)
    (h1 : StoreLe li₁ st₁) (h2 : StoreLe li₂ st₂) (hsh : ShapeEq st₁ st₂) :
    MRel li₁ li₂ st₁ st₂ (matchDotstarT cb flags alts text li₁ st₁)
      (matchDotstarT cb flags alts text li₂ st₂) := by
  rw [matchDotstarT, matchDotstarT]
  by_cases hmx : flags.dsMixed = true
  · rw [if_pos hmx, if_pos hmx]
    exact matchMixedLoopT_sync cb hcb text alts 1 li₁ li₂ st₁ st₂ h1 h2 hsh
  · rw [if_neg hmx, if_neg hmx]
    by_cases hw : flags.dsWrap = true
    · rw [if_pos hw, if_pos hw]
      exact mrel_pure _ _ _ _ _ h1 h2
    · rw [if_neg hw, if_neg hw]
      by_cases hp : flags.dsPre = true
      · rw [if_pos hp, if_pos hp]
        exact mrel_pure _ _ _ _ _ h1 h2
      · rw [if_neg hp, if_neg hp]
        by_cases hsf : flags.dsSuf = true
        · rw [if_pos hsf, if_pos hsf]
          exact mrel_pure _ _ _ _ _ h1 h2
        · rw [if_neg hsf, if_neg hsf]
          exact mrel_pure _ _ _ _ _ h1 h2

theorem matchSufPatLoopT_sync (cb : MatchCb) (hcb : CbSync cb) (sp : Compiled)
    (text : List Nat) (sufLen : Nat) :
    ∀ (rem i : Nat) (li₁ li₂ : Nat) (st₁ st₂ : Store),
      StoreLe li₁ st₁ → StoreLe li₂ st₂ → ShapeEq st₁ st₂ →
      MRel li₁ li₂ st₁ st₂ (matchSufPatLoopT cb sp text sufLen rem i li₁ st₁)
        (matchSufPatLoopT cb sp text sufLen rem i li₂ st₂)
  | 0, i, li₁, li₂, st₁, st₂, h1, h2, hsh => by
    rw [matchSufPatLoopT, matchSufPatLoopT]
    exact mrel_pure _ _ _ _ _ h1 h2
  | rem + 1, i, li₁, li₂, st₁, st₂, h1, h2, hsh => by
    rw [matchSufPatLoopT, matchSufPatLoopT]
    by_cases hstop : (decide (i > text.length) || decide (i > sufLen + 10)) = true
    · rw [if_pos hstop, if_pos hstop]
      exact mrel_pure _ _ _ _ _ h1 h2
    · rw [if_neg hstop, if_neg hstop]
      have HC := hcb sp (text.drop (text.length - i)) li₁ li₂ (st₁.child 0) (st₂.child 0)
        (h1.child_le 0) (h2.child_le 0) (hsh.child 0)
      rcases hc1 : cb li₁ (st₁.child 0) sp (text.drop (text.length - i))
        with ⟨b₁, lic₁, cst₁⟩
      rcases hc2 : cb li₂ (st₂.child 0) sp (text.drop (text.length - i))
        with ⟨b₂, lic₂, cst₂⟩
      rw [hc1, hc2] at HC
      obtain ⟨hb, hm1, hm2, hl1, hl2, hs1, hs2⟩ := HC
      simp only at hb hm1 hm2 hl1 hl2 hs1 hs2
      subst hb
      simp only
      have hw1 : StoreLe lic₁ (st₁.withChild 0 cst₁) :=
        StoreLe.withChild_le (h1.mono hm1) hl1 0
      have hw2 : StoreLe lic₂ (st₂.withChild 0 cst₂) :=
        StoreLe.withChild_le (h2.mono hm2) hl2 0
      have hws1 : ShapeEq st₁ (st₁.withChild 0 cst₁) := shapeEq_withChild_self 0 hs1
      have hws2 : ShapeEq st₂ (st₂.withChild 0 cst₂) := shapeEq_withChild_self 0 hs2
      by_cases hbt : b₁ = true
      · rw [if_pos hbt, if_pos hbt]
        exact ⟨rfl, hm1, hm2, hw1, hw2, hws1, hws2⟩
      · rw [if_neg hbt, if_neg hbt]
        have hsh' : ShapeEq (st₁.withChild 0 cst₁) (st₂.withChild 0 cst₂) :=
          (hws1.symm.trans hsh).trans hws2
        have H := matchSufPatLoopT_sync cb hcb sp text sufLen rem (i + 1) lic₁ lic₂
          (st₁.withChild 0 cst₁) (st₂.withChild 0 cst₂) hw1 hw2 hsh'
        exact ⟨H.1, Nat.le_trans hm1 H.2.1, Nat.le_trans hm2 H.2.2.1, H.2.2.2.1,
          H.2.2.2.2.1, hws1.trans H.2.2.2.2.2.1, hws2.trans H.2.2.2.2.2.2⟩

theorem matchSufT_sync (cb : MatchCb) (hcb : CbSync cb) (suf : List Nat)
    (spOpt : Option Compiled) (text : List Nat)
    (li₁ li₂ : Nat) (st₁ st₂ : Store)
    (h1 : StoreLe li₁ st₁) (h2 : StoreLe li₂ st₂) (hsh : ShapeEq st₁ st₂) :
    MRel li₁ li₂ st₁ st₂ (matchSufT cb suf spOpt text li₁ st₁)
      (matchSufT cb suf spOpt text li₂ st₂) := by
  rw [matchSufT.eq_def, matchSufT.eq_def]
  by_cases h0 : (suf.length == 0) = true
  · rw [if_pos h0, if_pos h0]
    exact mrel_pure _ _ _ _ _ h1 h2
  · rw [if_neg h0, if_neg h0]
    cases spOpt with
    | some sp =>
      exact matchSufPatLoopT_sync cb hcb sp text suf.length
        (text.length + suf.length + 12) 0 li₁ li₂ st₁ st₂ h1 h2 hsh
    | none =>
      simp only
      by_cases hc : (decide (text.length < suf.length)
          || !cStrcmpEq (text.drop (text.length - suf.length)) suf) = true
      · rw [if_pos hc, if_pos hc]
        exact mrel_pure _ _ _ _ _ h1 h2
      · rw [if_neg hc, if_neg hc]
        exact mrel_pure _ _ _ _ _ h1 h2

theorem altsStep (cb : MatchCb) (middle : List Nat) (middleLen : Nat)
    (rest : List (AltSufBase × Option Compiled)) (k : Nat)
    {li₁ li₂ : Nat} {st₁ st₂ : Store} {b : Bool} {lia₁ lia₂ : Nat} {sta₁ sta₂ : Store}
    (hsh : ShapeEq st₁ st₂)
    (ha1 : li₁ ≤ lia₁) (ha2 : li₂ ≤ lia₂)
    (hl1 : StoreLe lia₁ sta₁) (hl2 : StoreLe lia₂ sta₂)
    (hs1 : ShapeEq st₁ sta₁) (hs2 : ShapeEq st₂ sta₂)
    (Hrec : ∀ (k : Nat) (li₁ li₂ : Nat) (st₁ st₂ : Store), StoreLe li₁ st₁ →
      StoreLe li₂ st₂ → ShapeEq st₁ st₂ →
      MRel li₁ li₂ st₁ st₂ (matchAltsLoopT cb middle middleLen rest k li₁ st₁)
        (matchAltsLoopT cb middle middleLen rest k li₂ st₂)) :
    MRel li₁ li₂ st₁ st₂
      (if b = true then (true, lia₁, sta₁)
        else matchAltsLoopT cb middle middleLen rest (k + 1) lia₁ sta₁)
      (if b = true then (true, lia₂, sta₂)
        else matchAltsLoopT cb middle middleLen rest (k + 1) lia₂ sta₂) := by
  by_cases hbt : b = true
  · rw [if_pos hbt, if_pos hbt]
    exact ⟨rfl, ha1, ha2, hl1, hl2, hs1, hs2⟩
  · rw [if_neg hbt, if_neg hbt]
    have hsh2 : ShapeEq sta₁ sta₂ := (hs1.symm.trans hsh).trans hs2
    have H := Hrec (k + 1) lia₁ lia₂ sta₁ sta₂ hl1 hl2 hsh2
    exact ⟨H.1, Nat.le_trans ha1 H.2.1, Nat.le_trans ha2 H.2.2.1, H.2.2.2.1,
      H.2.2.2.2.1, hs1.trans H.2.2.2.2.2.1, hs2.trans H.2.2.2.2.2.2⟩

theorem matchAltsLoopT_sync (cb : MatchCb) (hcb : CbSync cb)
    (middle : List Nat) (middleLen : Nat) :
    ∀ (alts : List (AltSufBase × Option Compiled)) (k : Nat)
      (li₁ li₂ : Nat) (st₁ st₂ : Store),
      StoreLe li₁ st₁ → StoreLe li₂ st₂ → ShapeEq st₁ st₂ →
      MRel li₁ li₂ st₁ st₂ (matchAltsLoopT cb middle middleLen alts k li₁ st₁)
        (matchAltsLoopT cb middle middleLen alts k li₂ st₂)
  | [], k, li₁, li₂, st₁, st₂, h1, h2, hsh => by
    rw [matchAltsLoopT.eq_1, matchAltsLoopT.eq_1]
    exact mrel_pure _ _ _ _ _ h1 h2
  | (asb, some sp) :: rest, k, li₁, li₂, st₁, st₂, h1, h2, hsh => by
    rw [matchAltsLoopT.eq_2, matchAltsLoopT.eq_2]
    have Hrec := fun k li₁ li₂ st₁ st₂ ha hb hc =>
      matchAltsLoopT_sync cb hcb middle middleLen rest k li₁ li₂ st₁ st₂ ha hb hc
    cases hls : asb.litSuf with
    | some l =>
      simp only
      by_cases hml : middleLen > 0
      · rw [if_pos hml, if_pos hml]
        simp only
        exact altsStep cb middle middleLen rest k hsh (Nat.le_refl _) (Nat.le_refl _)
          h1 h2 (shapeEq_refl _) (shapeEq_refl _) Hrec
      · rw [if_neg hml, if_neg hml]
        simp only
        exact altsStep cb middle middleLen rest k hsh (Nat.le_refl _) (Nat.le_refl _)
          h1 h2 (shapeEq_refl _) (shapeEq_refl _) Hrec
    | none =>
      simp only
      by_cases hml : middleLen > 0
      · rw [if_pos hml, if_pos hml]
        have HC := hcb sp middle li₁ li₂ (st₁.child k) (st₂.child k)
          (h1.child_le k) (h2.child_le k) (hsh.child k)
        rcases hc1 : cb li₁ (st₁.child k) sp middle with ⟨b₁, lic₁, cst₁⟩
        rcases hc2 : cb li₂ (st₂.child k) sp middle with ⟨b₂, lic₂, cst₂⟩
        rw [hc1, hc2] at HC
        obtain ⟨hb, hm1, hm2, hl1, hl2, hs1, hs2⟩ := HC
        simp only at hb hm1 hm2 hl1 hl2 hs1 hs2
        subst hb
        simp only
        exact altsStep cb middle middleLen rest k hsh hm1 hm2
          (StoreLe.withChild_le (h1.mono hm1) hl1 k)
          (StoreLe.withChild_le (h2.mono hm2) hl2 k)
          (shapeEq_withChild_self k hs1) (shapeEq_withChild_self k hs2) Hrec
      · rw [if_neg hml, if_neg hml]
        simp only
        exact altsStep cb middle middleLen rest k hsh (Nat.le_refl _) (Nat.le_refl _)
          h1 h2 (shapeEq_refl _) (shapeEq_refl _) Hrec
  | (asb, none) :: rest, k, li₁, li₂, st₁, st₂, h1, h2, hsh => by
    rw [matchAltsLoopT.eq_3, matchAltsLoopT.eq_3]
    have Hrec := fun k li₁ li₂ st₁ st₂ ha hb hc =>
      matchAltsLoopT_sync cb hcb middle middleLen rest k li₁ li₂ st₁ st₂ ha hb hc
    cases hls : asb.litSuf with
    | some l =>
      simp only
      by_cases hml : middleLen > 0
      · rw [if_pos hml, if_pos hml]
        simp only
        exact altsStep cb middle middleLen rest k hsh (Nat.le_refl _) (Nat.le_refl _)
          h1 h2 (shapeEq_refl _) (shapeEq_refl _) Hrec
      · rw [if_neg hml, if_neg hml]
        simp only
        exact altsStep cb middle middleLen rest k hsh (Nat.le_refl _) (Nat.le_refl _)
          h1 h2 (shapeEq_refl _) (shapeEq_refl _) Hrec
    | none =>
      simp only
      exact altsStep cb middle middleLen rest k hsh (Nat.le_refl _) (Nat.le_refl _)
        h1 h2 (shapeEq_refl _) (shapeEq_refl _) Hrec

theorem matchAdvT_sync (cb : MatchCb) (hcb : CbSync cb) (b : CompiledBase)
    (spOpt : Option Compiled) (alts : List (AltSufBase × Option Compiled))
    (text : List Nat) (li₁ li₂ : Nat) (st₁ st₂ : Store)
    (h1 : StoreLe li₁ st₁) (h2 : StoreLe li₂ st₂) (hsh : ShapeEq st₁ st₂) :
    MRel li₁ li₂ st₁ st₂ (matchAdvT cb b spOpt alts text li₁ st₁)
      (matchAdvT cb b spOpt alts text li₂ st₂) := by
  rw [matchAdvT, matchAdvT]
  by_cases hds : (b.advDs.dsPre || b.advDs.dsSuf || b.advDs.dsMixed) = true
  · rw [if_pos hds, if_pos hds]
    exact matchDotstarT_sync cb hcb b.advDs alts text li₁ li₂ st₁ st₂ h1 h2 hsh
  · rw [if_neg hds, if_neg hds]
    by_cases hpre : (b.advPre.length > 0 &&
        (decide (text.length < b.advPre.length)
          || !cStrncmpEq text b.advPre b.advPre.length)) = true
    · rw [if_pos hpre, if_pos hpre]
      exact mrel_pure _ _ _ _ _ h1 h2
    · rw [if_neg hpre, if_neg hpre]
      have HS := matchSufT_sync cb hcb b.advSuf spOpt text li₁ li₂ st₁ st₂ h1 h2 hsh
      rcases hm1 : matchSufT cb b.advSuf spOpt text li₁ st₁ with ⟨me₁, lia₁, sta₁⟩
      rcases hm2 : matchSufT cb b.advSuf spOpt text li₂ st₂ with ⟨me₂, lia₂, sta₂⟩
      rw [hm1, hm2] at HS
      obtain ⟨hme, ha1, ha2, hl1, hl2, hs1, hs2⟩ := HS
      simp only at hme ha1 ha2 hl1 hl2 hs1 hs2
      subst hme
      simp only
      cases me₁ with
      | none => exact ⟨rfl, ha1, ha2, hl1, hl2, hs1, hs2⟩
      | some matchEnd =>
        simp only
        by_cases hlt : matchEnd < b.advPre.length
        · rw [if_pos hlt, if_pos hlt]
          exact ⟨rfl, ha1, ha2, hl1, hl2, hs1, hs2⟩
        · rw [if_neg hlt, if_neg hlt]
          have hsh2 : ShapeEq sta₁ sta₂ := (hs1.symm.trans hsh).trans hs2
          have H := matchAltsLoopT_sync cb hcb ((text.take matchEnd).drop b.advPre.length)
            (matchEnd - b.advPre.length) alts 1 lia₁ lia₂ sta₁ sta₂ hl1 hl2 hsh2
          exact ⟨H.1, Nat.le_trans ha1 H.2.1, Nat.le_trans ha2 H.2.2.1, H.2.2.2.1,
            H.2.2.2.2.1, hs1.trans H.2.2.2.2.2.1, hs2.trans H.2.2.2.2.2.2⟩

theorem matchStepT_sync (cb : MatchCb) (hcb : CbSync cb) (c : Compiled)
    (text : List Nat) (li₁ li₂ : Nat) (st₁ st₂ : Store)
    (h1 : StoreLe li₁ st₁) (h2 : StoreLe li₂ st₂) (hsh : ShapeEq st₁ st₂) :
    MRel li₁ li₂ st₁ st₂ (matchStepT cb li₁ st₁ c text) (matchStepT cb li₂ st₂ c text) := by
  rw [matchStepT, matchStepT]
  cases hba : c.base.bothAnchors with
  | some ba => exact mrel_pure _ _ _ _ _ h1 h2
  | none =>
    simp only
    cases hurl : c.base.urlTable with
    | some table => exact mrel_pure _ _ _ _ _ h1 h2
    | none =>
      simp only
      cases hla : c.base.literalAlt with
      | some alts => exact mrel_pure _ _ _ _ _ h1 h2
      | none =>
        simp only
        by_cases hadv : c.base.hasAdvAlt = true
        · rw [if_pos hadv, if_pos hadv]
          exact matchAdvT_sync cb hcb c.base c.advSufPat c.advAlts text li₁ li₂ st₁ st₂
            h1 h2 hsh
        · rw [if_neg hadv, if_neg hadv]
          cases hdfa : c.base.dfa with
          | some d => exact mrel_pure _ _ _ _ _ h1 h2
          | none =>
            simp only
            by_cases hdu : c.base.hasDotstarUnanchored = true
            · rw [if_pos hdu, if_pos hdu]
              exact mrel_pure _ _ _ _ _ h1 h2
            · rw [if_neg hdu, if_neg hdu]
              have HR := nfaPathRunT_sync c.base text li₁ li₂ st₁.last st₂.last
                h1.last_le h2.last_le
              rcases hr1 : nfaPathRunT c.base text li₁ st₁.last with ⟨r₁, lin₁, ln₁⟩
              rcases hr2 : nfaPathRunT c.base text li₂ st₂.last with ⟨r₂, lin₂, ln₂⟩
              rw [hr1, hr2] at HR
              obtain ⟨hr, hn1, hn2, hb1, hb2⟩ := HR
              simp only at hr hn1 hn2 hb1 hb2
              subst hr
              simp only
              refine ⟨rfl, hn1, hn2, ?_, ?_, ?_, ?_⟩
              · exact StoreLe.withLast_le (h1.mono hn1) hb1
              · exact StoreLe.withLast_le (h2.mono hn2) hb2
              · exact shapeEq_withLast _ _
              · exact shapeEq_withLast _ _

theorem vibrexMatchRunF_sync :
    ∀ (fuel : Nat) (c : Compiled) (text : List Nat) (li₁ li₂ : Nat) (st₁ st₂ : Store),
      StoreLe li₁ st₁ → StoreLe li₂ st₂ → ShapeEq st₁ st₂ →
      MRel li₁ li₂ st₁ st₂ (vibrexMatchRunF fuel li₁ st₁ c text)
        (vibrexMatchRunF fuel li₂ st₂ c text)
  | 0, c, text, li₁, li₂, st₁, st₂, h1, h2, hsh => by
    rw [vibrexMatchRunF, vibrexMatchRunF]
    exact mrel_pure _ _ _ _ _ h1 h2
  | fuel + 1, c, text, li₁, li₂, st₁, st₂, h1, h2, hsh => by
    rw [vibrexMatchRunF, vibrexMatchRunF]
    exact matchStepT_sync (fun li2 st2 c2 t2 => vibrexMatchRunF fuel li2 st2 c2 t2)
      (fun c' t' li₁' li₂' st₁' st₂' ha hb hc =>
        vibrexMatchRunF_sync fuel c' t' li₁' li₂' st₁' st₂' ha hb hc)
      c text li₁ li₂ st₁ st₂ h1 h2 hsh

theorem stepFold_nil (nodes : List Node) :
    ∀ (bytes : List Nat) (li : Nat) (last : Nat → Nat),
      (bytes.foldl (fun acc c => stepT nodes acc.1 acc.2.1 acc.2.2 c)
        (li, last, ([] : List Nat))).2.2 = []
  | [], li, last => rfl
  | c :: rest, li, last => by
    rw [List.foldl_cons]
    rw [show stepT nodes (li, last, ([] : List Nat)).1 (li, last, ([] : List Nat)).2.1
        (li, last, ([] : List Nat)).2.2 c = (li + 1, last, ([] : List Nat)) from rfl]
    exact stepFold_nil nodes rest (li + 1) last

/-- With `anchored_end` set, the inner byte loop is exactly: step the frontier
through every remaining byte, then run the end-of-text check on what is left
(an emptied frontier stays empty and fails the check, mirroring the early
break). -/
theorem innerRunT_true_eq_fold (nodes : List Node) :
    ∀ (bytes clist : List Nat) (li : Nat) (last : Nat → Nat),
      (innerRunT nodes true bytes clist li last).1 =
        (isEndMatchT nodes true
          ((bytes.foldl (fun acc c => stepT nodes acc.1 acc.2.1 acc.2.2 c)
            (li, last, clist))).2.2
          ((bytes.foldl (fun acc c => stepT nodes acc.1 acc.2.1 acc.2.2 c)
            (li, last, clist))).1
          ((bytes.foldl (fun acc c => stepT nodes acc.1 acc.2.1 acc.2.2 c)
            (li, last, clist))).2.1).1
  | [], clist, li, last => rfl
  | c :: rest, clist, li, last => by
    rw [innerRunT]
    rcases hst : stepT nodes li last clist c with ⟨li', last', nl⟩
    rw [List.foldl_cons]
    rw [show stepT nodes (li, last, clist).1 (li, last, clist).2.1 (li, last, clist).2.2 c
        = stepT nodes li last clist c from rfl]
    rw [hst]
    simp only
    by_cases he : nl.isEmpty = true
    · rw [if_pos he]
      have hnl : nl = [] := List.isEmpty_iff.mp he
      subst hnl
      rw [show ((li', last', ([] : List Nat)) : Nat × (Nat → Nat) × List Nat)
          = (li', last', ([] : List Nat)) from rfl]
      have hfe := stepFold_nil nodes rest li' last'
      rcases hr : rest.foldl (fun acc c => stepT nodes acc.1 acc.2.1 acc.2.2 c)
        (li', last', ([] : List Nat)) with ⟨lif, lastf, clf⟩
      rw [hr] at hfe
      simp only at hfe
      subst hfe
      rw [show (isEndMatchT nodes true [] lif lastf).1 = false from rfl]
    · rw [if_neg he]
      rw [if_neg (by simp)]
      exact innerRunT_true_eq_fold nodes rest nl li' last'

/-- Two tag-synchronized foldings of `step` over the same bytes keep equal
frontiers and bounded tags. -/
theorem stepFold_sync (nodes : List Node) :
    ∀ (bytes : List Nat) (cl : List Nat) (li₁ li₂ : Nat) (l₁ l₂ : Nat → Nat),
      TagLe li₁ l₁ → TagLe li₂ l₂ →
      ((bytes.foldl (fun acc c => stepT nodes acc.1 acc.2.1 acc.2.2 c)
          (li₁, l₁, cl)).2.2
        = (bytes.foldl (fun acc c => stepT nodes acc.1 acc.2.1 acc.2.2 c)
          (li₂, l₂, cl)).2.2) ∧
      TagLe (bytes.foldl (fun acc c => stepT nodes acc.1 acc.2.1 acc.2.2 c)
          (li₁, l₁, cl)).1
        (bytes.foldl (fun acc c => stepT nodes acc.1 acc.2.1 acc.2.2 c)
          (li₁, l₁, cl)).2.1 ∧
      TagLe (bytes.foldl (fun acc c => stepT nodes acc.1 acc.2.1 acc.2.2 c)
          (li₂, l₂, cl)).1
        (bytes.foldl (fun acc c => stepT nodes acc.1 acc.2.1 acc.2.2 c)
          (li₂, l₂, cl)).2.1
  | [], cl, li₁, li₂, l₁, l₂, h1, h2 => ⟨rfl, h1, h2⟩
  | c :: rest, cl, li₁, li₂, l₁, l₂, h1, h2 => by
    rw [List.foldl_cons, List.foldl_cons]
    rw [show stepT nodes (li₁, l₁, cl).1 (li₁, l₁, cl).2.1 (li₁, l₁, cl).2.2 c
        = stepT nodes li₁ l₁ cl c from rfl]
    rw [show stepT nodes (li₂, l₂, cl).1 (li₂, l₂, cl).2.1 (li₂, l₂, cl).2.2 c
        = stepT nodes li₂ l₂ cl c from rfl]
    have HS := stepT_sync nodes c li₁ li₂ l₁ l₂ cl h1 h2
    rcases hs1 : stepT nodes li₁ l₁ cl c with ⟨li₁', m₁, nl₁⟩
    rcases hs2 : stepT nodes li₂ l₂ cl c with ⟨li₂', m₂, nl₂⟩
    have hli1 : li₁' = li₁ + 1 := by
      rw [show li₁' = (stepT nodes li₁ l₁ cl c).1 from by rw [hs1]]
      rfl
    have hli2 : li₂' = li₂ + 1 := by
      rw [show li₂' = (stepT nodes li₂ l₂ cl c).1 from by rw [hs2]]
      rfl
    rw [hs1, hs2] at HS
    obtain ⟨hnl, hsync⟩ := HS
    subst hnl
    subst hli1
    subst hli2
    exact stepFold_sync nodes rest nl₁ (li₁ + 1) (li₂ + 1) m₁ m₂ hsync.1 hsync.2.1

/-- The end-of-text verdict of a seeded full-text folding does not depend on
the entry tag table or `listid` (given boundedness): it equals the same run
seeded and stepped with fresh all-zero tags from `listid = 1`. -/
theorem acceptAt_canonical (nodes : List Node) (start : Option Nat) (text : List Nat)
    (i li liA : Nat) (l lA : Nat → Nat) (hl : TagLe li l) (hA : TagLe liA lA) :
    (isEndMatchT nodes true
      ((text.drop i).foldl (fun acc c => stepT nodes acc.1 acc.2.1 acc.2.2 c)
        (liA, lA, (addstateT nodes (li + 1) (Int.ofNat i) (gasFor nodes) start (l, [])).2)).2.2
      ((text.drop i).foldl (fun acc c => stepT nodes acc.1 acc.2.1 acc.2.2 c)
        (liA, lA, (addstateT nodes (li + 1) (Int.ofNat i) (gasFor nodes) start (l, [])).2)).1
      ((text.drop i).foldl (fun acc c => stepT nodes acc.1 acc.2.1 acc.2.2 c)
        (liA, lA, (addstateT nodes (li + 1) (Int.ofNat i) (gasFor nodes) start (l, [])).2)).2.1).1
    = (isEndMatchT nodes true
      ((text.drop i).foldl (fun acc c => stepT nodes acc.1 acc.2.1 acc.2.2 c)
        (1, addstateT nodes 1 (Int.ofNat i) (gasFor nodes) start ((fun _ => 0), []))).2.2
      ((text.drop i).foldl (fun acc c => stepT nodes acc.1 acc.2.1 acc.2.2 c)
        (1, addstateT nodes 1 (Int.ofNat i) (gasFor nodes) start ((fun _ => 0), []))).1
      ((text.drop i).foldl (fun acc c => stepT nodes acc.1 acc.2.1 acc.2.2 c)
        (1, addstateT nodes 1 (Int.ofNat i) (gasFor nodes) start ((fun _ => 0), []))).2.1).1 := by
  have hsync0 : TagSync (li + 1) 1 l (fun _ => 0) := by
    refine ⟨fun j => Nat.le_succ_of_le (hl j), fun j => Nat.zero_le 1, fun j => ?_⟩
    have e1 : (l j == li + 1) = false := by
      simp only [beq_eq_false_iff_ne, ne_eq]
      have := hl j
      omega
    have e2 : ((0 : Nat) == 1) = false := by decide
    rw [e1, e2]
  have HS := addstateT_sync nodes (Int.ofNat i) (li + 1) 1 (gasFor nodes) start
    (l, []) ((fun _ => 0), []) rfl hsync0
  rcases ha1 : addstateT nodes (li + 1) (Int.ofNat i) (gasFor nodes) start (l, [])
    with ⟨sA, fA⟩
  rcases ha2 : addstateT nodes 1 (Int.ofNat i) (gasFor nodes) start ((fun _ => 0), [])
    with ⟨sC, fC⟩
  rw [ha1, ha2] at HS
  obtain ⟨hf, hsync⟩ := HS
  simp only at hf
  subst hf
  have HF := stepFold_sync nodes (text.drop i) fA liA 1 lA sC hA hsync.2.1
  rcases hf1 : (text.drop i).foldl (fun acc c => stepT nodes acc.1 acc.2.1 acc.2.2 c)
    (liA, lA, fA) with ⟨lif₁, mf₁, clf₁⟩
  rcases hf2 : (text.drop i).foldl (fun acc c => stepT nodes acc.1 acc.2.1 acc.2.2 c)
    (1, sC, fA) with ⟨lif₂, mf₂, clf₂⟩
  rw [hf1, hf2] at HF
  obtain ⟨hcl, hle1, hle2⟩ := HF
  simp only at hcl hle1 hle2
  subst hcl
  simp only
  exact (isEndMatchT_sync nodes true clf₁ lif₁ lif₂ mf₁ mf₂ hle1 hle2).1

theorem strchrIdx_le {text : List Nat} {cur fc k : Nat}
    (h : strchrIdx text cur fc = some k) : k ≤ text.length := by
  rw [strchrIdx] at h
  by_cases h0 : (fc == 0) = true
  · rw [if_pos h0] at h
    by_cases hc : cur ≤ text.length
    · rw [if_pos hc] at h
      injection h with h
      omega
    · rw [if_neg hc] at h
      exact Option.noConfusion h
  · rw [if_neg h0] at h
    cases hfi : (text.drop cur).findIdx? (· == fc) with
    | none =>
      rw [hfi] at h
      exact Option.noConfusion h
    | some idx =>
      rw [hfi] at h
      injection h with h
      replace h : idx + cur = k := h
      have hidx : idx < (text.drop cur).length :=
        (List.findIdx?_eq_some_iff_findIdx_eq.mp hfi).1
      rw [List.length_drop] at hidx
      omega

theorem bmSearchF_le (pat : List Nat) (skipT : Nat → Nat) (txt : List Nat) :
    ∀ (fuel skip rel : Nat), bmSearchF pat skipT txt fuel skip = some rel →
      pat.length + rel ≤ txt.length
  | 0, skip, rel, h => Option.noConfusion h
  | fuel + 1, skip, rel, h => by
    rw [bmSearchF] at h
    by_cases hg : txt.length < pat.length + skip
    · rw [if_pos hg] at h
      exact Option.noConfusion h
    · rw [if_neg hg] at h
      cases hm : bmMismatchAux pat txt skip pat.length with
      | none =>
        rw [hm] at h
        injection h with h
        omega
      | some j =>
        rw [hm] at h
        exact bmSearchF_le pat skipT txt fuel _ rel h

theorem bmPreRunT_alive_fold (nodes : List Node) :
    ∀ (bytes clist : List Nat) (li : Nat) (last : Nat → Nat)
      (cl' : List Nat) (li' : Nat) (last' : Nat → Nat),
      bmPreRunT nodes true bytes clist li last = (.alive cl', li', last') →
      bytes.foldl (fun acc c => stepT nodes acc.1 acc.2.1 acc.2.2 c) (li, last, clist)
        = (li', last', cl')
  | [], clist, li, last, cl', li', last', h => by
    rw [bmPreRunT] at h
    injection h with h1 h2
    injection h2 with h2 h3
    injection h1 with h1
    subst h1
    subst h2
    subst h3
    rfl
  | c :: rest, clist, li, last, cl', li', last', h => by
    rw [bmPreRunT] at h
    rcases hst : stepT nodes li last clist c with ⟨li₁, last₁, nl⟩
    rw [hst] at h
    simp only at h
    by_cases he : nl.isEmpty = true
    · rw [if_pos he] at h
      exact Trip.noConfusion (congrArg Prod.fst h)
    · rw [if_neg he] at h
      rw [if_neg (by simp)] at h
      rw [List.foldl_cons]
      rw [show stepT nodes (li, last, clist).1 (li, last, clist).2.1 (li, last, clist).2.2 c
          = stepT nodes li last clist c from rfl]
      rw [hst]
      exact bmPreRunT_alive_fold nodes rest nl li₁ last₁ cl' li' last' h

theorem tagSync_diag {li : Nat} {l : Nat → Nat} (h : TagLe li l) : TagSync li li l l :=
  ⟨h, h, fun _ => rfl⟩

theorem genLoopT_c6 (nodes : List Node) (start : Option Nat) (text : List Nat) :
    ∀ (cnt i li : Nat) (last : Nat → Nat),
      TagLe li last → i + cnt ≤ text.length + 1 →
      (genLoopT nodes true start text cnt i li last).1 = true →
      ∃ j, j ≤ text.length ∧
        (isEndMatchT nodes true
          ((text.drop j).foldl (fun acc c => stepT nodes acc.1 acc.2.1 acc.2.2 c)
            (1, addstateT nodes 1 (Int.ofNat j) (gasFor nodes) start ((fun _ => 0), []))).2.2
          ((text.drop j).foldl (fun acc c => stepT nodes acc.1 acc.2.1 acc.2.2 c)
            (1, addstateT nodes 1 (Int.ofNat j) (gasFor nodes) start ((fun _ => 0), []))).1
          ((text.drop j).foldl (fun acc c => stepT nodes acc.1 acc.2.1 acc.2.2 c)
            (1, addstateT nodes 1 (Int.ofNat j) (gasFor nodes) start ((fun _ => 0), []))).2.1).1
          = true
  | 0, i, li, last, hl, hcnt, h => by
    rw [genLoopT] at h
    exact absurd h (by simp)
  | cnt + 1, i, li, last, hl, hcnt, h => by
    rw [genLoopT] at h
    have HA := addstateT_sync nodes (Int.ofNat i) (li + 1) (li + 1) (gasFor nodes) start
      (last, []) (last, []) rfl (tagSync_succ hl hl)
    rcases ha : addstateT nodes (li + 1) (Int.ofNat i) (gasFor nodes) start (last, [])
      with ⟨last1, clist⟩
    rw [ha] at HA h
    simp only at h
    have hlast1 : TagLe (li + 1) last1 := HA.2.1
    have HE := isEndMatchT_sync nodes (i == text.length) clist (li + 1) (li + 1)
      last1 last1 hlast1 hlast1
    rcases he : isEndMatchT nodes (i == text.length) clist (li + 1) last1
      with ⟨b1, lie, me⟩
    rw [he] at HE h
    have hme : TagLe lie me := HE.2.2.2.1
    have hlie : li + 1 ≤ lie := HE.2.1
    by_cases hcond : (b1 && (!true || i == text.length)) = true
    · rw [if_pos hcond] at h
      obtain ⟨hb1, hieq⟩ : b1 = true ∧ i = text.length := by simpa using hcond
      subst hieq
      refine ⟨text.length, Nat.le_refl _, ?_⟩
      have hcanon := acceptAt_canonical nodes start text text.length li (li + 1) last last1
        hl hlast1
      rw [ha] at hcanon
      rw [List.drop_length, List.foldl_nil, List.foldl_nil] at hcanon
      simp only at hcanon
      rw [List.drop_length, List.foldl_nil]
      show (isEndMatchT nodes true
          (addstateT nodes 1 (Int.ofNat text.length) (gasFor nodes) start ((fun _ => 0), [])).2 1
          (addstateT nodes 1 (Int.ofNat text.length) (gasFor nodes) start ((fun _ => 0), [])).1).1
        = true
      rw [← hcanon]
      simp only [beq_self_eq_true] at he
      rw [he]
      exact hb1
    · rw [if_neg hcond] at h
      have HI := innerRunT_sync nodes true (text.drop i) clist lie lie me me hme hme
      rcases hi : innerRunT nodes true (text.drop i) clist lie me with ⟨b2, lii, mi⟩
      rw [hi] at HI h
      have hmi : TagLe lii mi := HI.2.2.2.1
      by_cases hb2 : b2 = true
      · refine ⟨i, by omega, ?_⟩
        have hfold := innerRunT_true_eq_fold nodes (text.drop i) clist lie me
        rw [hi] at hfold
        simp only at hfold
        have hcanon := acceptAt_canonical nodes start text i li lie last me hl hme
        rw [ha] at hcanon
        simp only at hcanon
        rw [← hcanon, ← hfold]
        exact hb2
      · rw [if_neg hb2] at h
        exact genLoopT_c6 nodes start text cnt (i + 1) lii mi hmi (by omega) h

theorem fcLoopT_c6 (nodes : List Node) (start : Option Nat) (fc : Nat) (text : List Nat) :
    ∀ (f cur li : Nat) (last : Nat → Nat),
      TagLe li last →
      (fcLoopT nodes true start fc text f cur li last).1 = true →
      ∃ j, j ≤ text.length ∧
        (isEndMatchT nodes true
          ((text.drop j).foldl (fun acc c => stepT nodes acc.1 acc.2.1 acc.2.2 c)
            (1, addstateT nodes 1 (Int.ofNat j) (gasFor nodes) start ((fun _ => 0), []))).2.2
          ((text.drop j).foldl (fun acc c => stepT nodes acc.1 acc.2.1 acc.2.2 c)
            (1, addstateT nodes 1 (Int.ofNat j) (gasFor nodes) start ((fun _ => 0), []))).1
          ((text.drop j).foldl (fun acc c => stepT nodes acc.1 acc.2.1 acc.2.2 c)
            (1, addstateT nodes 1 (Int.ofNat j) (gasFor nodes) start ((fun _ => 0), []))).2.1).1
          = true
  | 0, cur, li, last, hl, h => by
    rw [fcLoopT] at h
    exact absurd h (by simp)
  | f + 1, cur, li, last, hl, h => by
    rw [fcLoopT] at h
    cases hs : strchrIdx text cur fc with
    | none =>
      rw [hs] at h
      exact absurd h (by simp)
    | some k =>
      rw [hs] at h
      simp only at h
      have HA := addstateT_sync nodes (Int.ofNat k) (li + 1) (li + 1) (gasFor nodes) start
        (last, []) (last, []) rfl (tagSync_succ hl hl)
      rcases ha : addstateT nodes (li + 1) (Int.ofNat k) (gasFor nodes) start (last, [])
        with ⟨last1, clist⟩
      rw [ha] at HA h
      simp only at h
      have hlast1 : TagLe (li + 1) last1 := HA.2.1
      rw [if_neg (by simp)] at h
      have HI := innerRunT_sync nodes true (text.drop k) clist (li + 1) (li + 1)
        last1 last1 hlast1 hlast1
      rcases hi : innerRunT nodes true (text.drop k) clist (li + 1) last1 with ⟨b2, lii, mi⟩
      rw [hi] at HI h
      have hmi : TagLe lii mi := HI.2.2.2.1
      by_cases hb2 : b2 = true
      · refine ⟨k, strchrIdx_le hs, ?_⟩
        have hfold := innerRunT_true_eq_fold nodes (text.drop k) clist (li + 1) last1
        rw [hi] at hfold
        simp only at hfold
        have hcanon := acceptAt_canonical nodes start text k li (li + 1) last last1 hl hlast1
        rw [ha] at hcanon
        simp only at hcanon
        rw [← hcanon, ← hfold]
        exact hb2
      · rw [if_neg hb2] at h
        exact fcLoopT_c6 nodes start fc text f (k + 1) lii mi hmi h

theorem bmLoopT_c6 (nodes : List Node) (start : Option Nat) (pat : List Nat)
    (skipT : Nat → Nat) (text : List Nat) (hpat : 0 < pat.length) :
    ∀ (f cur li : Nat) (last : Nat → Nat),
      TagLe li last →
      (bmLoopT nodes true start pat skipT text f cur li last).1 = true →
      ∃ j, j ≤ text.length ∧
        (isEndMatchT nodes true
          ((text.drop j).foldl (fun acc c => stepT nodes acc.1 acc.2.1 acc.2.2 c)
            (1, addstateT nodes 1 (Int.ofNat j) (gasFor nodes) start ((fun _ => 0), []))).2.2
          ((text.drop j).foldl (fun acc c => stepT nodes acc.1 acc.2.1 acc.2.2 c)
            (1, addstateT nodes 1 (Int.ofNat j) (gasFor nodes) start ((fun _ => 0), []))).1
          ((text.drop j).foldl (fun acc c => stepT nodes acc.1 acc.2.1 acc.2.2 c)
            (1, addstateT nodes 1 (Int.ofNat j) (gasFor nodes) start ((fun _ => 0), []))).2.1).1
          = true
  | 0, cur, li, last, hl, h => by
    rw [bmLoopT] at h
    exact absurd h (by simp)
  | f + 1, cur, li, last, hl, h => by
    rw [bmLoopT] at h
    cases hs : bmSearchF pat skipT (text.drop cur) (text.length + 1) 0 with
    | none =>
      rw [hs] at h
      exact absurd h (by simp)
    | some rel =>
      rw [hs] at h
      simp only at h
      have hbound := bmSearchF_le pat skipT (text.drop cur) (text.length + 1) 0 rel hs
      rw [List.length_drop] at hbound
      have hcand : cur + rel + pat.length ≤ text.length := by omega
      have HA := addstateT_sync nodes (Int.ofNat (cur + rel)) (li + 1) (li + 1)
        (gasFor nodes) start (last, []) (last, []) rfl (tagSync_succ hl hl)
      rcases ha : addstateT nodes (li + 1) (Int.ofNat (cur + rel)) (gasFor nodes) start
        (last, []) with ⟨last1, clist⟩
      rw [ha] at HA h
      simp only at h
      have hlast1 : TagLe (li + 1) last1 := HA.2.1
      rw [if_neg (by simp)] at h
      have HP := bmPreRunT_sync nodes true ((text.drop (cur + rel)).take pat.length) clist
        (li + 1) (li + 1) last1 last1 hlast1 hlast1
      rcases hp : bmPreRunT nodes true ((text.drop (cur + rel)).take pat.length) clist
        (li + 1) last1 with ⟨tr, lip, mp⟩
      rw [hp] at HP h
      have hmp : TagLe lip mp := HP.2.2.2.1
      cases tr with
      | hit =>
        exact absurd (show (bmPreRunT nodes true ((text.drop (cur + rel)).take pat.length)
            clist (li + 1) last1).1 = Trip.hit by rw [hp])
          (bmPreRunT_anchored_no_hit nodes _ clist (li + 1) last1)
      | dead =>
        simp only at h
        by_cases hrem : cur + rel + pat.length < text.length
        · rw [if_pos hrem] at h
          exact bmLoopT_c6 nodes start pat skipT text hpat f (cur + rel + 1) (lip + 1) mp
            (fun i => Nat.le_succ_of_le (hmp i)) h
        · rw [if_neg hrem] at h
          exact bmLoopT_c6 nodes start pat skipT text hpat f (cur + rel + 1) lip mp hmp h
      | alive cl2 =>
        simp only at h
        have hpfold := bmPreRunT_alive_fold nodes ((text.drop (cur + rel)).take pat.length)
          clist (li + 1) last1 cl2 lip mp (by rw [hp])
        have HI := innerRunT_sync nodes true (text.drop (cur + rel + pat.length)) cl2
          lip lip mp mp hmp hmp
        rcases hi : innerRunT nodes true (text.drop (cur + rel + pat.length)) cl2 lip mp
          with ⟨b2, lii, mi⟩
        rw [hi] at HI h
        have hmi : TagLe lii mi := HI.2.2.2.1
        by_cases hb2 : b2 = true
        · refine ⟨cur + rel, by omega, ?_⟩
          have hdd : text.drop (cur + rel + pat.length)
              = (text.drop (cur + rel)).drop pat.length := by
            rw [List.drop_drop]
          have hsplit : text.drop (cur + rel) =
              ((text.drop (cur + rel)).take pat.length)
                ++ (text.drop (cur + rel + pat.length)) := by
            rw [hdd]
            exact (List.take_append_drop _ _).symm
          have hfold := innerRunT_true_eq_fold nodes (text.drop (cur + rel + pat.length))
            cl2 lip mp
          rw [hi] at hfold
          simp only at hfold
          have hcanon := acceptAt_canonical nodes start text (cur + rel) li (li + 1)
            last last1 hl hlast1
          rw [ha] at hcanon
          simp only at hcanon
          rw [← hcanon]
          rw [hsplit, List.foldl_append, hpfold]
          rw [← hfold]
          exact hb2
        · rw [if_neg hb2] at h
          exact bmLoopT_c6 nodes start pat skipT text hpat f (cur + rel + 1) lii mi hmi h

end Lemmas

/-- C1: refuted (code bug).  The literal-alternation optimizer accepts the
pattern `\.|zz` but copies the alternatives verbatim, without collapsing the
escape `\.`; on the text `"."` the specialized matcher then returns false
while the same pattern compiled through the general NFA path matches (the
escaped dot matches the literal dot). -/
theorem c1_literal_alt_optimizer_diverges_from_nfa :
    canUseLiteralAltOpt (str "\\.|zz") = true ∧
    vibrexMatch (vibrexCompile (str "\\.|zz")) (str ".") = false ∧
    nfaOnlyMatch (str "\\.|zz") (str ".") = true :=
  ⟨rfl, rfl, rfl⟩

/-- C2: refuted (code bug).  The pattern `^bbb|c+c` compiles successfully
(through the mixed-dotstar advanced-alternation optimizer), and on the text
`"bbbx"` the compiled matcher returns false although the substring `bbb`
starting at offset 0 is accepted by the reference NFA interpretation of the
pattern (the optimizer wrongly treats the alternative `^bbb` as exact-match
`^bbb$`). -/
theorem c2_match_diverges_from_reference_nfa :
    (vibrexCompile (str "^bbb|c+c")).isSome = true ∧
    vibrexMatch (vibrexCompile (str "^bbb|c+c")) (str "bbbx") = false ∧
    nfaOnlyMatch (str "^bbb|c+c") (str "bbbx") = true :=
  ⟨rfl, rfl, rfl⟩

/-- C3: refuted (code bug).  The pattern `a|a|...|a` with 1001 alternation
operators compiles successfully: the literal-alternation optimizer grabs it
and, unlike the advanced-alternation optimizer and the alternation-DFA
builder, enforces no `MAX_ALTERNATIONS` limit, so `vibrex_compile` does not
return null for it. -/
theorem c3_alternation_limit_not_enforced :
    (altPat 1001).count 124 = 1001 ∧
    (vibrexCompile (altPat 1001)).isSome = true := by
  refine ⟨altPat_count 1001, ?_⟩
  have hstep : vibrexCompileF 8 (altPat 1001) =
      compileTop (fun q => vibrexCompileF 7 q) (altPat 1001) := rfl
  show (vibrexCompileF 8 (altPat 1001)).isSome = true
  rw [hstep]
  unfold compileTop
  have h65 : ¬((altPat 1001).length > 65536) := by rw [altPat_length]; omega
  have hba : compileBothAnchorsOpt (altPat 1001) = none :=
    compileBothAnchorsOpt_none _ (canUseBothAnchorsOpt_false_of_head _ (by
      have h0 : (altPat 1001).getD 0 0 = 97 := rfl
      rw [h0]; decide))
  have hurl : compileUrlPatternOpt (altPat 1001) = none :=
    compileUrlPatternOpt_none _ (canUseUrlPatternOpt_false_of_head _ rfl)
  have hla : compileLiteralAltOpt (altPat 1001) =
      some (parseLiteralAlternativesL (altPat 1001)) := by
    unfold compileLiteralAltOpt
    rw [canUseLiteralAltOpt_altPat 1001 (by omega)]
    simp
  rw [if_neg h65, hba, hurl, hla]
  rfl

/-- C5: confirmed.  Each of the six malformed patterns `(`, `[z-a]`, `a**`,
`\` (trailing backslash), `*a`, `[]` makes `vibrex_compile` return null. -/
theorem c5_malformed_patterns_fail_to_compile :
    vibrexCompile (str "(") = none ∧
    vibrexCompile (str "[z-a]") = none ∧
    vibrexCompile (str "a**") = none ∧
    vibrexCompile (str "\\") = none ∧
    vibrexCompile (str "*a") = none ∧
    vibrexCompile (str "[]") = none :=
  ⟨rfl, rfl, rfl, rfl, rfl, rfl⟩

/-- C7: refuted (code bug).  Top-level alternation is not commutative:
`^aaa|b+b` and `b+b|^aaa` both compile, yet on the text `"aaax"` the first
returns false (the mixed-dotstar optimizer treats the alternative `^aaa` as
the exact match `^aaa$`) while the second, compiled through the general NFA
path, returns true. -/
theorem c7_alternation_not_commutative :
    (vibrexCompile (str "^aaa|b+b")).isSome = true ∧
    (vibrexCompile (str "b+b|^aaa")).isSome = true ∧
    vibrexMatch (vibrexCompile (str "^aaa|b+b")) (str "aaax") = false ∧
    vibrexMatch (vibrexCompile (str "b+b|^aaa")) (str "aaax") = true :=
  ⟨rfl, rfl, rfl, rfl⟩

/-- C9: duplicate suppression via `lastlist` works: every frontier list built
by `addstate_pos` (the seeding of a frontier, starting from the empty list)
and every next-frontier list built by `step` is duplicate-free, so its length
never exceeds the number of allocated NFA states. -/
theorem c9_frontier_duplicate_suppression :
    (∀ (nodes : List Node) (li : Nat) (pos : Int) (s : Option Nat) (last : Nat → Nat),
      (addstateT nodes li pos (gasFor nodes) s (last, [])).2.Nodup ∧
      (addstateT nodes li pos (gasFor nodes) s (last, [])).2.length ≤ nodes.length) ∧
    (∀ (nodes : List Node) (li : Nat) (last : Nat → Nat) (clist : List Nat) (c : Nat),
      (stepT nodes li last clist c).2.2.Nodup ∧
      (stepT nodes li last clist c).2.2.length ≤ nodes.length) := by
  constructor
  · intro nodes li pos s last
    have h := (addstateT_inv nodes li pos (gasFor nodes) s (last, [])
      ⟨List.nodup_nil, by intro i hi; exact absurd hi (List.not_mem_nil i)⟩).1
    exact ⟨h.1, nodup_bounded_length_le h.1 (fun i hi => (h.2 i hi).2)⟩
  · intro nodes li last clist c
    have h := stepT_snd_inv nodes li last clist c
    exact ⟨h.1, nodup_bounded_length_le h.1 (fun i hi => (h.2 i hi).2)⟩


/-- C4: for `^PREFIX.*SUFFIX$` with non-empty, metacharacter-free `PREFIX`
and `SUFFIX` (and the pattern within the 65,536-byte length limit),
`vibrex_match` is true exactly when the text starts with `PREFIX`, ends with
`SUFFIX`, and is at least `|PREFIX| + |SUFFIX|` bytes long.  The pattern is
the byte list `'^' :: PREFIX ++ '.' :: '*' :: SUFFIX ++ ['$']`. -/
theorem c4_both_anchors_optimization (pre suf text : List Nat)
    (hpre : pre ≠ []) (hsuf : suf ≠ [])
    (hmpre : ∀ b ∈ pre, inSet metaAdv b = false)
    (hmsuf : ∀ b ∈ suf, inSet metaAdv b = false)
    (hfit : pre.length + suf.length + 4 ≤ 65536) :
    vibrexMatch (vibrexCompile (94 :: (pre ++ 46 :: 42 :: (suf ++ [36])))) text = true ↔
      (pre <+: text ∧ suf <:+ text ∧ pre.length + suf.length ≤ text.length) := by
  rw [vibrexCompile_bothAnchors_shape pre suf hpre hsuf hmpre hmsuf hfit]
  rw [show vibrexMatch (some (.mk { bothAnchors := some (pre, suf) } none [])) text
      = matchBothAnchors pre suf text from rfl]
  exact matchBothAnchors_iff pre suf text hsuf

theorem c4_both_anchors_optimization_witness :
    (vibrexMatch (vibrexCompile (94 :: (str "ab" ++ 46 :: 42 :: (str "cd" ++ [36]))))
        (str "abzcd") = true ↔
      (str "ab" <+: str "abzcd" ∧ str "cd" <:+ str "abzcd" ∧
        (str "ab").length + (str "cd").length ≤ (str "abzcd").length)) :=
  c4_both_anchors_optimization (str "ab") (str "cd") (str "abzcd")
    (by decide) (by decide) (by decide) (by decide) (by decide)

/-- C10 counterexample: the class `[Z-^]` (range `Z`(90)–`^`(94), straddling
93) compiles, and the single byte `]` (93) is matched by it: a character class
CAN contain the byte `]`, via a range whose endpoints straddle it. -/
theorem c10_class_rbracket_counterexample :
    (vibrexCompile (str "[Z-^]")).isSome = true ∧
    vibrexMatch (vibrexCompile (str "[Z-^]")) (str "]") = true :=
  ⟨rfl, rfl⟩

/-- C10 (amended): inside a character class a backslash is an ordinary byte
(the class `[\b]` contains exactly `\` (92) and `b`, with no escape
processing); and a `]` outside any class is parsed by `parseatom`'s
ordinary-literal branch as a single-byte atom, not rejected. -/
theorem c10_class_backslash_and_rbracket_amended :
    (∀ b : Nat, 0 < b → b < 256 → b ≠ 93 →
      ∃ pb : Nat × (Nat → Bool),
        classLoopF 5 [91, 92, b, 93] 1 (fun _ => false) = some pb ∧
        pb.1 = 3 ∧ ∀ c, pb.2 c = true ↔ (c = 92 ∨ c = b)) ∧
    (∀ (re : List Nat) (st : PSt), re.getD st.pos 0 = 93 →
      parseAtomStep re st =
        ({ st with pos := st.pos + 1, nodes := st.nodes ++ [⟨.ch 93, none, none⟩] },
         .inl (some ⟨st.nodes.length, [(st.nodes.length, false)]⟩))) ∧
    vibrexMatch (vibrexCompile (str "[\\a]")) (str "\\") = true ∧
    vibrexMatch (vibrexCompile (str "[\\a]")) (str "a") = true ∧
    vibrexMatch (vibrexCompile (str "[\\a]")) (str "b") = false ∧
    vibrexMatch (vibrexCompile (str "]")) (str "]") = true := by
  refine ⟨?_, ?_, rfl, rfl, rfl, rfl⟩
  · intro b hb0 hb256 hb93
    refine ⟨(3, setRangeBm (setRangeBm (fun _ => false) 92 92) b b), ?_, rfl, ?_⟩
    · have h0 : (b == 0) = false := by simp; omega
      have h93 : (b == 93) = false := by simp [hb93]
      simp [classLoopF, byte, h0, h93]
    · intro c
      simp only [setRangeBm, Bool.false_or, Bool.or_eq_true, Bool.and_eq_true,
        decide_eq_true_eq]
      omega
  · intro re st h
    simp only [parseAtomStep]
    rw [h]
    simp [byte, newNode]

theorem c10_class_backslash_and_rbracket_amended_witness :
    ∃ pb : Nat × (Nat → Bool),
      classLoopF 5 [91, 92, 97, 93] 1 (fun _ => false) = some pb ∧
      pb.1 = 3 ∧ ∀ c, pb.2 c = true ↔ (c = 92 ∨ c = 97) :=
  c10_class_backslash_and_rbracket_amended.1 97 (by decide) (by decide) (by decide)

/-- C8: `vibrex_match` is deterministic across repeated invocations.  A first
call from the fresh engine state (`listid = 1`, all `lastlist` tags 0, as
right after `vibrex_compile`) returns `(b, listid', tags')`; a second call on
the same pattern and text, continuing from the mutated `listid'`/`tags'`,
returns the same boolean. -/
theorem c8_match_deterministic (c : Compiled) (text : List Nat) :
    vibrexMatch (some c) text = (vibrexMatchRun 1 (initStore c) c text).1 ∧
    (vibrexMatchRun (vibrexMatchRun 1 (initStore c) c text).2.1
        (vibrexMatchRun 1 (initStore c) c text).2.2 c text).1
      = (vibrexMatchRun 1 (initStore c) c text).1 := by
  refine ⟨rfl, ?_⟩
  have hinit : StoreLe 1 (initStore c) := initStoreF_le 8 c 1
  have hdiag := vibrexMatchRunF_sync 8 c text 1 1 (initStore c) (initStore c)
    hinit hinit (shapeEq_refl _)
  have hle : StoreLe (vibrexMatchRun 1 (initStore c) c text).2.1
      (vibrexMatchRun 1 (initStore c) c text).2.2 := hdiag.2.2.2.1
  have hshp : ShapeEq (initStore c) (vibrexMatchRun 1 (initStore c) c text).2.2 :=
    hdiag.2.2.2.2.2.1
  have H := vibrexMatchRunF_sync 8 c text 1 (vibrexMatchRun 1 (initStore c) c text).2.1
    (initStore c) (vibrexMatchRun 1 (initStore c) c text).2.2 hinit hle hshp
  exact H.1.symm

/-- C6: when `anchored_end` is set, the NFA matching path never accepts from a
`Match` state seen mid-text: if it returns true, then from some start offset
`i` of the text, seeding the frontier there (`addstate_pos`) and stepping it
with `step` through EVERY remaining byte of the text leaves a frontier on
which the end-of-text check `is_end_match` (a `Match` member, or an
`EndAnchor` member whose epsilon closure reaches `Match`) succeeds.  The run
in the conclusion uses fresh tags (`listid = 1`, all `lastlist` 0), which is
equivalent by duplicate-suppression synchronization; so acceptance is tied to
a frontier obtained only after all bytes have been consumed. -/
theorem c6_end_anchor_defers_acceptance
    (b : CompiledBase) (text : List Nat) (li : Nat) (last : Nat → Nat)
    (hAE : b.anchoredEnd = true)
    (hbm : b.badCharEnabled = true → 0 < b.litPre.length)
    (hle : TagLe li last)
    (h : (nfaPathRunT b text li last).1 = true) :
    ∃ i ≤ text.length,
      (isEndMatchT b.nodes true
        ((text.drop i).foldl (fun acc c => stepT b.nodes acc.1 acc.2.1 acc.2.2 c)
          (1, addstateT b.nodes 1 (Int.ofNat i) (gasFor b.nodes) b.start
            ((fun _ => 0), []))).2.2
        ((text.drop i).foldl (fun acc c => stepT b.nodes acc.1 acc.2.1 acc.2.2 c)
          (1, addstateT b.nodes 1 (Int.ofNat i) (gasFor b.nodes) b.start
            ((fun _ => 0), []))).1
        ((text.drop i).foldl (fun acc c => stepT b.nodes acc.1 acc.2.1 acc.2.2 c)
          (1, addstateT b.nodes 1 (Int.ofNat i) (gasFor b.nodes) b.start
            ((fun _ => 0), []))).2.1).1 = true := by
  rw [nfaPathRunT, hAE] at h
  simp only at h
  by_cases hbc : b.badCharEnabled = true
  · rw [if_pos hbc] at h
    exact bmLoopT_c6 b.nodes b.start b.litPre b.badCharSkip text (hbm hbc)
      (text.length + 2) 0 li last hle h
  · rw [if_neg hbc] at h
    by_cases hfc : (!(match b.start with
        | some i =>
          match b.nodes.get? i with
          | some nd => nd.ty.isStartAnchor
          | none => false
        | none => false) && b.hasFirstChar) = true
    · rw [if_pos hfc] at h
      exact fcLoopT_c6 b.nodes b.start b.firstChar text (text.length + 2) 0 li last hle h
    · rw [if_neg hfc] at h
      by_cases hsa : (match b.start with
          | some i =>
            match b.nodes.get? i with
            | some nd => nd.ty.isStartAnchor
            | none => false
          | none => false) = true
      · rw [if_pos hsa] at h
        exact genLoopT_c6 b.nodes b.start text _ 0 li last hle (by omega) h
      · rw [if_neg hsa] at h
        exact genLoopT_c6 b.nodes b.start text _ 0 li last hle (by omega) h

theorem c6_end_anchor_defers_acceptance_witness :
    ((Option.getD (nfaTailCompile (str "a$")) (Compiled.mk {} none [])).base.anchoredEnd
        = true) ∧
    ((nfaPathRunT (Option.getD (nfaTailCompile (str "a$")) (Compiled.mk {} none [])).base
        (str "a") 1 (fun _ => 0)).1 = true) ∧
    ∃ i ≤ (str "a").length,
      (isEndMatchT
        (Option.getD (nfaTailCompile (str "a$")) (Compiled.mk {} none [])).base.nodes true
        (((str "a").drop i).foldl
          (fun acc c => stepT
            (Option.getD (nfaTailCompile (str "a$")) (Compiled.mk {} none [])).base.nodes
            acc.1 acc.2.1 acc.2.2 c)
          (1, addstateT
            (Option.getD (nfaTailCompile (str "a$")) (Compiled.mk {} none [])).base.nodes
            1 (Int.ofNat i)
            (gasFor (Option.getD (nfaTailCompile (str "a$")) (Compiled.mk {} none [])).base.nodes)
            (Option.getD (nfaTailCompile (str "a$")) (Compiled.mk {} none [])).base.start
            ((fun _ => 0), []))).2.2
        (((str "a").drop i).foldl
          (fun acc c => stepT
            (Option.getD (nfaTailCompile (str "a$")) (Compiled.mk {} none [])).base.nodes
            acc.1 acc.2.1 acc.2.2 c)
          (1, addstateT
            (Option.getD (nfaTailCompile (str "a$")) (Compiled.mk {} none [])).base.nodes
            1 (Int.ofNat i)
            (gasFor (Option.getD (nfaTailCompile (str "a$")) (Compiled.mk {} none [])).base.nodes)
            (Option.getD (nfaTailCompile (str "a$")) (Compiled.mk {} none [])).base.start
            ((fun _ => 0), []))).1
        (((str "a").drop i).foldl
          (fun acc c => stepT
            (Option.getD (nfaTailCompile (str "a$")) (Compiled.mk {} none [])).base.nodes
            acc.1 acc.2.1 acc.2.2 c)
          (1, addstateT
            (Option.getD (nfaTailCompile (str "a$")) (Compiled.mk {} none [])).base.nodes
            1 (Int.ofNat i)
            (gasFor (Option.getD (nfaTailCompile (str "a$")) (Compiled.mk {} none [])).base.nodes)
            (Option.getD (nfaTailCompile (str "a$")) (Compiled.mk {} none [])).base.start
            ((fun _ => 0), []))).2.1).1 = true :=
  ⟨rfl, rfl,
   c6_end_anchor_defers_acceptance
     (Option.getD (nfaTailCompile (str "a$")) (Compiled.mk {} none [])).base
     (str "a") 1 (fun _ => 0) rfl (by decide) (fun _ => Nat.zero_le 1) rfl⟩

end Vibrex
